import Mathlib

/-!
# Quad tree spatial index (`quad tree/Source.cpp`)

A shallow embedding of the spatial index of `Source.cpp`:

* `olc.rect` with its three predicates,
* `QuadTree`, the recursive node (`Resize`, `Clear`, `Insert`, `Search`, `GetItems`),
* `QuadTreeContainer`, the public container (`Insert`, `Search`, `Remove`, `Relocate`,
  `Resize`, `size`, `empty`, `clear`).

Modelling conventions.

* Coordinates are exact rationals: every comparison and every halving of the source is
  carried out without rounding.  The properties of `Search` on reachable states use the sums
  `pos + size` only through the order between the computed values: a hypothesis on the extent
  of a rect is stated on its far edge as the predicates compute it (`pos < pos + size`), and
  the lemmas that carry it are instances of facts about arbitrary ordered values.
* A `std::list` cell has an identity that survives the erasure of its neighbours.  Cells are
  therefore given an address (a natural number) drawn from a counter kept in the container,
  and an iterator is the address of the cell it designates.
* `QuadTreeItemLocation::container` points at the `items` list of one node; that node is named
  by the quadrant indices leading to it from the root.
* Erasing through an iterator that designates no live cell is undefined behaviour in the
  source; the corresponding operations answer `none`.
-/

namespace olc

/-- The pair of coordinates `olc::vf2d`. -/
structure vf2d where
  x : ℚ
  y : ℚ
deriving DecidableEq

/-- The axis-aligned box `olc::rect`; the defaults are those of its constructor. -/
structure rect where
  pos : vf2d := ⟨0, 0⟩
  size : vf2d := ⟨1, 1⟩
deriving DecidableEq

/-- The overload `rect::Contains(const olc::vf2d&)`. -/
def rect.ContainsPoint (self : rect) (point : vf2d) : Bool :=
  decide (point.x ≥ self.pos.x) &&
  decide (point.x < self.pos.x + self.size.x) &&
  decide (point.y ≥ self.pos.y) &&
  decide (point.y < self.pos.y + self.size.y)

/-- The overload `rect::Contains(const olc::rect&)`. -/
def rect.Contains (self : rect) (r : rect) : Bool :=
  decide (r.pos.x ≥ self.pos.x) &&
  decide (r.pos.x + r.size.x < self.pos.x + self.size.x) &&
  decide (r.pos.y ≥ self.pos.y) &&
  decide (r.pos.y + r.size.y < self.pos.y + self.size.y)

/-- The method `rect::Overlaps`. -/
def rect.Overlaps (self : rect) (r : rect) : Bool :=
  decide (r.pos.x < self.pos.x + self.size.x) &&
  decide (r.pos.x + r.size.x > self.pos.x) &&
  decide (r.pos.y < self.pos.y + self.size.y) &&
  decide (r.pos.y + r.size.y > self.pos.y)

end olc

/-- The constant `MAX_DEPTH`. -/
def MAX_DEPTH : Nat := 8

/-- The record `QuadTreeItemLocation`: `container` names the node whose `items` list holds the
cell (quadrant indices from the root), `iterator` is the address of the cell. -/
structure QuadTreeItemLocation where
  container : List (Fin 4)
  iterator : Nat
deriving DecidableEq

/-- One cell of a node's `std::list<std::pair<olc::rect, OBJECT_TYPE>>`. -/
structure ListCell (α : Type) where
  addr : Nat
  first : olc.rect
  second : α

/-- A `std::shared_ptr<QuadTree<OBJECT_TYPE>>`: either null (an empty child slot) or a node
with the four members `depth`, `childRect`, `childQuadTrees`, `items`. -/
inductive QuadTree (α : Type) where
  | null : QuadTree α
  | node (depth : Nat) (childRect : Fin 4 → olc.rect)
      (childQuadTrees : Fin 4 → QuadTree α) (items : List (ListCell α)) : QuadTree α

namespace QuadTree
variable {α : Type}

/-- The range of the loops `for (int i = 0; i < 4; i++)`. -/
def quadrantOrder : List (Fin 4) := [0, 1, 2, 3]

/-- The test `if (childQuadTrees[i])` negated. -/
def isNull : QuadTree α → Bool
  | null => true
  | node _ _ _ _ => false

/-- The member `depth` (of a node). -/
def depth : QuadTree α → Nat
  | null => 0
  | node d _ _ _ => d

/-- The four rects assigned to `childRect` by `Resize`. -/
def quadrants (r : olc.rect) : Fin 4 → olc.rect :=
  let vChildSize : olc.vf2d := ⟨r.size.x / 2, r.size.y / 2⟩
  fun i =>
    match i with
    | 0 => ⟨r.pos, vChildSize⟩
    | 1 => ⟨⟨r.pos.x + vChildSize.x, r.pos.y⟩, vChildSize⟩
    | 2 => ⟨⟨r.pos.x, r.pos.y + vChildSize.y⟩, vChildSize⟩
    | 3 => ⟨⟨r.pos.x + vChildSize.x, r.pos.y + vChildSize.y⟩, vChildSize⟩

/-- The method `QuadTree::Clear`: the items are dropped and the four child pointers reset. -/
def Clear : QuadTree α → QuadTree α
  | null => null
  | node d cr _ _ => node d cr (fun _ => null) []

/-- The method `QuadTree::Resize`. -/
def Resize : QuadTree α → olc.rect → QuadTree α
  | null, _ => null
  | node d cr ch its, r =>
    match Clear (node d cr ch its) with
    | null => null
    | node d' _ ch' its' => node d' (quadrants r) ch' its'

/-- The constructor `QuadTree(rect, nDepth)`: members take their defaults, then `depth = nDepth`
and `Resize(rect)`. -/
def create (r : olc.rect) (nDepth : Nat) : QuadTree α :=
  Resize (node nDepth (fun _ => {}) (fun _ => null) []) r

/-- The statement `if (!childQuadTrees[i]) childQuadTrees[i] = make_shared(childRect[i], depth + 1)`,
as the value of the pointer afterwards. -/
def orCreate (c : QuadTree α) (r : olc.rect) (nDepth : Nat) : QuadTree α :=
  if c.isNull then create r nDepth else c

/-- Number of nodes of a tree (used only as a termination measure). -/
def nodeCount : QuadTree α → Nat
  | null => 0
  | node _ _ ch _ => 1 + (nodeCount (ch 0) + nodeCount (ch 1) + nodeCount (ch 2) + nodeCount (ch 3))

/-- The method `QuadTree::Insert(item, itemRect)`.  `cell` is the address of the list cell that
`items.push_back` allocates.  The result is the tree after the call and the returned location.
The loop returns from inside at the first quadrant that contains `itemRect` while
`depth + 1 < MAX_DEPTH`; otherwise the item is pushed at the back of `items`. -/
def Insert : QuadTree α → α → olc.rect → Nat → QuadTree α × QuadTreeItemLocation
  | null, _, _, cell => (null, ⟨[], cell⟩)
  | node d cr ch its, item, itemRect, cell =>
    match h : quadrantOrder.find?
        (fun i => (cr i).Contains itemRect && decide (d + 1 < MAX_DEPTH)) with
    | some i =>
      let r := Insert (orCreate (ch i) (cr i) (d + 1)) item itemRect cell
      (node d cr (Function.update ch i r.1) its, ⟨i :: r.2.container, r.2.iterator⟩)
    | none => (node d cr ch (its ++ [⟨cell, itemRect, item⟩]), ⟨[], cell⟩)
termination_by t => (nodeCount t, MAX_DEPTH - depth t)
decreasing_by
  have h1 := List.find?_some h
  simp only [Bool.and_eq_true, decide_eq_true_eq] at h1
  have h2 : nodeCount (ch i) < nodeCount (node d cr ch its) := by
    simp only [nodeCount]
    fin_cases i <;> simp <;> omega
  unfold orCreate
  split
  · have e1 : nodeCount (create (cr i) (d + 1) : QuadTree α) = 1 := by
      simp [create, Resize, Clear, nodeCount]
    have e2 : depth (create (cr i) (d + 1) : QuadTree α) = d + 1 := by
      simp [create, Resize, Clear, depth]
    rw [e1, e2]
    by_cases hn : nodeCount (node d cr ch its) = 1
    · rw [hn]; apply Prod.Lex.right; simp only [depth]; omega
    · apply Prod.Lex.left; omega
  · exact Prod.Lex.left _ _ h2

/-- The method `QuadTree::GetItems`, as the list of what it pushes. -/
def GetItems : QuadTree α → List α
  | null => []
  | node _ _ ch its =>
    its.map (fun p => p.second) ++
      quadrantOrder.flatMap (fun i => if (ch i).isNull then [] else GetItems (ch i))

/-- The method `QuadTree::Search(rect, list)`, as the list of what it pushes. -/
def Search : QuadTree α → olc.rect → List α
  | null, _ => []
  | node _ cr ch its, r =>
    (its.filter (fun p => r.Overlaps p.first)).map (fun p => p.second) ++
      quadrantOrder.flatMap (fun i =>
        if (ch i).isNull then []
        else if r.Contains (cr i) then GetItems (ch i)
        else if (cr i).Overlaps r then Search (ch i) r
        else [])

/-- The call `location.container->erase(location.iterator)`: follow `container` to the node and
erase the cell with address `iterator` from its `items`.  `none` when the location designates no
live cell. -/
def eraseAt : QuadTree α → List (Fin 4) → Nat → Option (QuadTree α)
  | null, _, _ => none
  | node d cr ch its, [], a =>
    if its.any (fun p => decide (p.addr = a)) then
      some (node d cr ch (its.eraseP (fun p => decide (p.addr = a))))
    else none
  | node d cr ch its, i :: p, a =>
    (eraseAt (ch i) p a).map (fun c => node d cr (Function.update ch i c) its)

/-- The cell designated by a location (`*location.iterator`), if it is live. -/
def cellAt : QuadTree α → List (Fin 4) → Nat → Option (ListCell α)
  | null, _, _ => none
  | node _ _ _ its, [], a => its.find? (fun p => decide (p.addr = a))
  | node _ _ ch _, i :: p, a => cellAt (ch i) p a

/-- Every cell of the tree with the node that holds it, in the order of `GetItems`. -/
def entries : QuadTree α → List (List (Fin 4) × ListCell α)
  | null => []
  | node _ _ ch its =>
    its.map (fun c => ([], c)) ++
      quadrantOrder.flatMap (fun i => (entries (ch i)).map (fun pc => (i :: pc.1, pc.2)))

/-- Every cell below child `i` of a node has a rect that quadrant `i` of the node contains. -/
def Contained : QuadTree α → Prop
  | null => True
  | node _ cr ch _ =>
    ∀ i, (∀ pc ∈ entries (ch i), (cr i).Contains pc.2.first = true) ∧ Contained (ch i)

/-- The `depth` members of all the nodes of a tree. -/
def depths : QuadTree α → List Nat
  | null => []
  | node d _ ch _ => d :: quadrantOrder.flatMap (fun i => depths (ch i))

/-- Number of levels of a tree: a node without children has one level. -/
def height : QuadTree α → Nat
  | null => 0
  | node _ _ ch _ =>
    1 + max (max (height (ch 0)) (height (ch 1))) (max (height (ch 2)) (height (ch 3)))

/-- Every child was created by `Insert`: its depth is one more than its parent's and is below
`MAX_DEPTH`. -/
def DepthOK : QuadTree α → Prop
  | null => True
  | node d _ ch _ =>
    ∀ i, ((ch i).isNull = false → (ch i).depth = d + 1 ∧ d + 1 < MAX_DEPTH) ∧ DepthOK (ch i)

/-- The node reached from a node by a sequence of quadrant indices (null when there is none). -/
def subtreeAt : QuadTree α → List (Fin 4) → QuadTree α
  | t, [] => t
  | null, _ :: _ => null
  | node _ _ ch _, i :: p => subtreeAt (ch i) p

/-- No node with `depth + 1 < MAX_DEPTH` holds in its `items` a rect that one of its own four
quadrants contains. -/
def PushedDown : QuadTree α → Prop
  | null => True
  | node d cr ch its =>
    (d + 1 < MAX_DEPTH → ∀ c ∈ its, ∀ i, (cr i).Contains c.first = false) ∧
      ∀ i, PushedDown (ch i)

/-- Every node has the quadrant rects that `Resize` computes from some bounds. -/
def QuadrantsOK : QuadTree α → Prop
  | null => True
  | node _ cr ch _ => (∃ b, cr = quadrants b) ∧ ∀ i, QuadrantsOK (ch i)

/-- The tree with every `items` list emptied: its nodes, their depths and their quadrants. -/
def dropItems : QuadTree α → QuadTree α
  | null => null
  | node d cr ch _ => node d cr (fun i => dropItems (ch i)) []

/-- Whether `Search` with query `q` pushes the cell `c` held by the node at path `p`: below a
child whose quadrant the query contains everything is pushed, a child whose quadrant does not
overlap the query is skipped, and in the node itself the rect of the cell is tested. -/
def inSearch : QuadTree α → olc.rect → List (Fin 4) → ListCell α → Bool
  | null, _, _, _ => false
  | node _ _ _ _, q, [], c => q.Overlaps c.first
  | node _ cr ch _, q, i :: p, c =>
    if q.Contains (cr i) then true
    else if (cr i).Overlaps q then inSearch (ch i) q p c
    else false

/-- The reference search of the specification: no containment shortcut and no pruning, every
stored rect of every node is tested against the query with `Overlaps`, in the order of
`GetItems`. -/
def SearchReference : QuadTree α → olc.rect → List α
  | null, _ => []
  | node _ _ ch its, r =>
    (its.filter (fun p => r.Overlaps p.first)).map (fun p => p.second) ++
      quadrantOrder.flatMap (fun i => SearchReference (ch i) r)

/-- The method `QuadTree::Insert` with the loop over the quadrants run in the order `ord`
instead of `0, 1, 2, 3`. -/
def InsertWith (ord : List (Fin 4)) :
    QuadTree α → α → olc.rect → Nat → QuadTree α × QuadTreeItemLocation
  | null, _, _, cell => (null, ⟨[], cell⟩)
  | node d cr ch its, item, itemRect, cell =>
    match h : ord.find? (fun i => (cr i).Contains itemRect && decide (d + 1 < MAX_DEPTH)) with
    | some i =>
      let r := InsertWith ord (orCreate (ch i) (cr i) (d + 1)) item itemRect cell
      (node d cr (Function.update ch i r.1) its, ⟨i :: r.2.container, r.2.iterator⟩)
    | none => (node d cr ch (its ++ [⟨cell, itemRect, item⟩]), ⟨[], cell⟩)
termination_by t => (nodeCount t, MAX_DEPTH - depth t)
decreasing_by
  have h1 := List.find?_some h
  simp only [Bool.and_eq_true, decide_eq_true_eq] at h1
  have h2 : nodeCount (ch i) < nodeCount (node d cr ch its) := by
    simp only [nodeCount]
    fin_cases i <;> simp <;> omega
  unfold orCreate
  split
  · have e1 : nodeCount (create (cr i) (d + 1) : QuadTree α) = 1 := by
      simp [create, Resize, Clear, nodeCount]
    have e2 : depth (create (cr i) (d + 1) : QuadTree α) = d + 1 := by
      simp [create, Resize, Clear, depth]
    rw [e1, e2]
    by_cases hn : nodeCount (node d cr ch its) = 1
    · rw [hn]; apply Prod.Lex.right; simp only [depth]; omega
    · apply Prod.Lex.left; omega
  · exact Prod.Lex.left _ _ h2

end QuadTree

/-- One cell of the canonical list: the record `QuadTreeItem` together with the address `self`
of the cell that holds it.  A handle is a `std::list<QuadTreeItem<T>>::iterator`, that is the
address of such a cell. -/
structure QuadTreeItem (T : Type) where
  self : Nat
  item : T
  location : QuadTreeItemLocation

/-- The class `QuadTreeContainer`; `nextAddr` is the next address the allocator hands out. -/
structure QuadTreeContainer (T : Type) where
  items : List (QuadTreeItem T)
  rootQuadTree : QuadTree Nat
  nextAddr : Nat

namespace QuadTreeContainer
variable {T : Type}

/-- The constructor `QuadTreeContainer(rect, nDepth)`. -/
def create (r : olc.rect := ⟨⟨0, 0⟩, ⟨100, 100⟩⟩) (nDepth : Nat := 0) : QuadTreeContainer T :=
  ⟨[], QuadTree.create r nDepth, 0⟩

/-- The method `QuadTreeContainer::Resize`: only the root node is resized. -/
def Resize (c : QuadTreeContainer T) (r : olc.rect) : QuadTreeContainer T :=
  { c with rootQuadTree := c.rootQuadTree.Resize r }

/-- The method `QuadTreeContainer::size`; the result type is `uint16_t`. -/
def size (c : QuadTreeContainer T) : Nat :=
  c.items.length % 2 ^ 16

/-- The method `QuadTreeContainer::empty`. -/
def empty (c : QuadTreeContainer T) : Bool :=
  c.items.isEmpty

/-- The method `QuadTreeContainer::Insert`: a new canonical cell is pushed, its iterator is
inserted in the tree and the returned location stored in the cell. -/
def Insert (c : QuadTreeContainer T) (item : T) (itemRect : olc.rect) : QuadTreeContainer T :=
  let r := c.rootQuadTree.Insert c.nextAddr itemRect (c.nextAddr + 1)
  { items := c.items ++ [⟨c.nextAddr, item, r.2⟩]
    rootQuadTree := r.1
    nextAddr := c.nextAddr + 2 }

/-- The method `QuadTreeContainer::Search`. -/
def Search (c : QuadTreeContainer T) (r : olc.rect) : List Nat :=
  c.rootQuadTree.Search r

/-- The method `QuadTreeContainer::Remove`. -/
def Remove (c : QuadTreeContainer T) (item : Nat) : Option (QuadTreeContainer T) :=
  match c.items.find? (fun e => decide (e.self = item)) with
  | none => none
  | some e =>
    match c.rootQuadTree.eraseAt e.location.container e.location.iterator with
    | none => none
    | some t =>
      some { items := c.items.eraseP (fun e => decide (e.self = item))
             rootQuadTree := t
             nextAddr := c.nextAddr }

/-- The method `QuadTreeContainer::Relocate`. -/
def Relocate (c : QuadTreeContainer T) (item : Nat) (itemRect : olc.rect) :
    Option (QuadTreeContainer T) :=
  match c.items.find? (fun e => decide (e.self = item)) with
  | none => none
  | some e =>
    match c.rootQuadTree.eraseAt e.location.container e.location.iterator with
    | none => none
    | some t =>
      let r := t.Insert item itemRect c.nextAddr
      some { items := c.items.map (fun e => if e.self = item then { e with location := r.2 } else e)
             rootQuadTree := r.1
             nextAddr := c.nextAddr + 1 }

/-- The rect currently stored with a handle: `item->location.iterator->first`. -/
def rectOf (c : QuadTreeContainer T) (item : Nat) : Option olc.rect :=
  match c.items.find? (fun e => decide (e.self = item)) with
  | none => none
  | some e =>
    (c.rootQuadTree.cellAt e.location.container e.location.iterator).map (fun p => p.first)

/-- The handles of the canonical list, in list order. -/
def handles (c : QuadTreeContainer T) : List Nat :=
  c.items.map (fun e => e.self)

/-- A run of `Insert` calls, one for each pair of the list, in order. -/
def insertAll (c : QuadTreeContainer T) (l : List (T × olc.rect)) : QuadTreeContainer T :=
  l.foldl (fun c x => c.Insert x.1 x.2) c

/-- For every cell of the tree: the handle it holds, the node that holds it, its address. -/
def treeTriples (t : QuadTree Nat) : List (Nat × List (Fin 4) × Nat) :=
  (QuadTree.entries t).map (fun pc => (pc.2.second, pc.1, pc.2.addr))

/-- For every canonical cell: its handle and the two components of its recorded location. -/
def itemTriples (c : QuadTreeContainer T) : List (Nat × List (Fin 4) × Nat) :=
  c.items.map (fun e => (e.self, e.location.container, e.location.iterator))

/-- The invariant of the container: the root is a node, tree cells and canonical cells
correspond one to one through the recorded locations, addresses are distinct and already
allocated, and every cell lies in the quadrants above it. -/
structure Inv (c : QuadTreeContainer T) : Prop where
  root : c.rootQuadTree.isNull = false
  loc : (treeTriples c.rootQuadTree).Perm c.itemTriples
  handles_nodup : c.handles.Nodup
  handles_lt : ∀ h ∈ c.handles, h < c.nextAddr
  addr_nodup : ((QuadTree.entries c.rootQuadTree).map (fun pc => pc.2.addr)).Nodup
  addr_lt : ∀ pc ∈ QuadTree.entries c.rootQuadTree, pc.2.addr < c.nextAddr
  contained : QuadTree.Contained c.rootQuadTree

/-- One call of `Insert`, `Remove` or `Relocate`; the last two with a handle that is valid. -/
inductive Step : QuadTreeContainer T → QuadTreeContainer T → Prop where
  | insert (c : QuadTreeContainer T) (item : T) (r : olc.rect) : Step c (c.Insert item r)
  | remove (c c' : QuadTreeContainer T) (h : Nat) : c.Remove h = some c' → Step c c'
  | relocate (c c' : QuadTreeContainer T) (h : Nat) (r : olc.rect) :
      c.Relocate h r = some c' → Step c c'

/-- The states reached from a freshly constructed container by `Insert`, `Remove` and
`Relocate` calls. -/
def Reachable (c : QuadTreeContainer T) : Prop :=
  ∃ (r : olc.rect) (n : Nat), Relation.ReflTransGen Step (create r n) c

/-- The method `QuadTreeContainer::clear`.  Its first statement, `rootQuadTree.clear()`, is read
as a call of `QuadTree::Clear`, the only clearing method the node class has. -/
def clear (c : QuadTreeContainer T) : QuadTreeContainer T :=
  { items := []
    rootQuadTree := c.rootQuadTree.Clear
    nextAddr := c.nextAddr }

/-- One call of `Insert`, `Remove`, `Relocate`, `Resize` or `clear`. -/
inductive StepAll : QuadTreeContainer T → QuadTreeContainer T → Prop where
  | step (c c' : QuadTreeContainer T) : Step c c' → StepAll c c'
  | resize (c : QuadTreeContainer T) (r : olc.rect) : StepAll c (c.Resize r)
  | clear (c : QuadTreeContainer T) : StepAll c c.clear

/-- The states reached from a freshly constructed container by `Insert`, `Remove`, `Relocate`,
`Resize` and `clear` calls. -/
def ReachableAll (c : QuadTreeContainer T) : Prop :=
  ∃ (r : olc.rect) (n : Nat), Relation.ReflTransGen StepAll (create r n) c

end QuadTreeContainer

/-! ## Unfolding `Insert` -/

namespace QuadTree
variable {α : Type}

theorem Insert_descend {d : Nat} {cr : Fin 4 → olc.rect} {ch : Fin 4 → QuadTree α}
    {its : List (ListCell α)} {item : α} {itemRect : olc.rect} {cell : Nat} {i : Fin 4}
    (h : quadrantOrder.find?
      (fun i => (cr i).Contains itemRect && decide (d + 1 < MAX_DEPTH)) = some i) :
    QuadTree.Insert (node d cr ch its) item itemRect cell =
      (node d cr (Function.update ch i
          (QuadTree.Insert (orCreate (ch i) (cr i) (d + 1)) item itemRect cell).1) its,
        ⟨i :: (QuadTree.Insert (orCreate (ch i) (cr i) (d + 1)) item itemRect cell).2.container,
          (QuadTree.Insert (orCreate (ch i) (cr i) (d + 1)) item itemRect cell).2.iterator⟩) := by
  rw [QuadTree.Insert]
  split
  · rename_i j hj
    rw [h] at hj
    cases hj
    rfl
  · rename_i hj
    rw [h] at hj
    cases hj

theorem Insert_here {d : Nat} {cr : Fin 4 → olc.rect} {ch : Fin 4 → QuadTree α}
    {its : List (ListCell α)} {item : α} {itemRect : olc.rect} {cell : Nat}
    (h : quadrantOrder.find?
      (fun i => (cr i).Contains itemRect && decide (d + 1 < MAX_DEPTH)) = none) :
    QuadTree.Insert (node d cr ch its) item itemRect cell =
      (node d cr ch (its ++ [⟨cell, itemRect, item⟩]), ⟨[], cell⟩) := by
  rw [QuadTree.Insert]
  split
  · rename_i j hj
    rw [h] at hj
    cases hj
  · rfl

/-! ## The cells of a tree -/

theorem mem_quadrantOrder (i : Fin 4) : i ∈ quadrantOrder := by
  fin_cases i <;> simp [quadrantOrder]

theorem quadrantOrder_nodup : quadrantOrder.Nodup := by
  simp [quadrantOrder]

theorem entries_of_isNull {t : QuadTree α} (h : t.isNull = true) : entries t = [] := by
  cases t with
  | null => rfl
  | node d cr ch its => simp [isNull] at h

theorem GetItems_eq_entries (t : QuadTree α) :
    GetItems t = (entries t).map (fun pc => pc.2.second) := by
  induction t with
  | null => rfl
  | node d cr ch its ih =>
    simp only [GetItems, entries, List.map_append, List.map_map, List.map_flatMap]
    congr 1
    congr 1
    funext i
    by_cases hn : (ch i).isNull = true
    · simp [hn, entries_of_isNull hn]
    · simp only [hn]
      rw [ih i]
      simp [Function.comp]

theorem perm_flatMap_of_update {ι β : Type} (l : List ι) (hl : l.Nodup) {i : ι} (hi : i ∈ l)
    {f g : ι → List β} {x : β} (hne : ∀ j, j ≠ i → g j = f j) (hx : (g i).Perm (x :: f i)) :
    (l.flatMap g).Perm (x :: l.flatMap f) := by
  induction l with
  | nil => simp at hi
  | cons a l ih =>
    rw [List.nodup_cons] at hl
    simp only [List.flatMap_cons]
    by_cases ha : a = i
    · subst ha
      have hrest : l.flatMap g = l.flatMap f := by
        have : ∀ j ∈ l, g j = f j := fun j hj => hne j (fun e => hl.1 (e ▸ hj))
        simp only [List.flatMap, List.map_congr_left this]
      rw [hrest]
      exact (hx.append_right _)
    · have hil : i ∈ l := by
        rcases List.mem_cons.1 hi with h | h
        · exact absurd h.symm ha
        · exact h
      rw [hne a ha]
      exact ((ih hl.2 hil).append_left (f a)).trans List.perm_middle


theorem isNull_create (r : olc.rect) (n : Nat) : (create r n : QuadTree α).isNull = false := by
  simp [create, Resize, Clear, isNull]

theorem entries_create (r : olc.rect) (n : Nat) : entries (create r n : QuadTree α) = [] := by
  simp [create, Resize, Clear, entries, quadrantOrder]

theorem isNull_orCreate (c : QuadTree α) (r : olc.rect) (n : Nat) :
    (orCreate c r n).isNull = false := by
  unfold orCreate
  split
  · exact isNull_create r n
  · simpa using ‹¬ c.isNull = true›

theorem entries_orCreate (c : QuadTree α) (r : olc.rect) (n : Nat) :
    entries (orCreate c r n) = entries c := by
  unfold orCreate
  split
  · rename_i h
    rw [entries_create, entries_of_isNull h]
  · rfl

theorem Insert_iterator (t : QuadTree α) (item : α) (r : olc.rect) (a : Nat) :
    (QuadTree.Insert t item r a).2.iterator = a := by
  induction t, item, r, a using QuadTree.Insert.induct with
  | case1 => simp [QuadTree.Insert]
  | case2 d cr ch its item r a i h ih => rw [Insert_descend h]; exact ih
  | case3 d cr ch its item r a h => rw [Insert_here h]

theorem isNull_Insert (t : QuadTree α) (item : α) (r : olc.rect) (a : Nat) :
    (QuadTree.Insert t item r a).1.isNull = t.isNull := by
  induction t, item, r, a using QuadTree.Insert.induct with
  | case1 => simp [QuadTree.Insert]
  | case2 d cr ch its item r a i h ih => rw [Insert_descend h]; rfl
  | case3 d cr ch its item r a h => rw [Insert_here h]; rfl

/-- After `Insert` the tree holds one more cell: the pushed pair, in the node named by the
returned location. -/
theorem entries_Insert_perm (t : QuadTree α) (item : α) (r : olc.rect) (a : Nat)
    (ht : t.isNull = false) :
    (entries (QuadTree.Insert t item r a).1).Perm
      (((QuadTree.Insert t item r a).2.container, ⟨a, r, item⟩) :: entries t) := by
  induction t, item, r, a using QuadTree.Insert.induct with
  | case1 => simp [isNull] at ht
  | case2 d cr ch its item r a i h ih =>
    rw [Insert_descend h]
    simp only [entries]
    refine (List.Perm.append_left _ ?_).trans List.perm_middle
    refine perm_flatMap_of_update quadrantOrder quadrantOrder_nodup (mem_quadrantOrder i) ?_ ?_
    · intro j hj
      simp [Function.update_noteq hj]
    · simp only [Function.update_same]
      have := (ih (isNull_orCreate _ _ _)).map (fun pc => (i :: pc.1, pc.2))
      rw [entries_orCreate] at this
      simpa using this
  | case3 d cr ch its item r a h =>
    rw [Insert_here h]
    simp only [entries, List.map_append, List.map_cons, List.map_nil]
    rw [List.append_assoc]
    exact List.perm_middle


/-! ## The containment invariant -/

theorem Contained_create (r : olc.rect) (n : Nat) : Contained (create r n : QuadTree α) := by
  simp [create, Resize, Clear, Contained, entries]

theorem Contained_orCreate {c : QuadTree α} (hc : Contained c) (r : olc.rect) (n : Nat) :
    Contained (orCreate c r n) := by
  unfold orCreate
  split
  · exact Contained_create r n
  · exact hc

theorem Contained_Insert (t : QuadTree α) (item : α) (r : olc.rect) (a : Nat)
    (ht : Contained t) : Contained (QuadTree.Insert t item r a).1 := by
  induction t, item, r, a using QuadTree.Insert.induct with
  | case1 => simpa [QuadTree.Insert] using ht
  | case2 d cr ch its item r a i h ih =>
    rw [Insert_descend h]
    have hfind := List.find?_some h
    simp only [Bool.and_eq_true, decide_eq_true_eq] at hfind
    simp only [Contained] at ht ⊢
    intro j
    by_cases hj : j = i
    · subst hj
      simp only [Function.update_same]
      refine ⟨?_, ih (Contained_orCreate (ht j).2 _ _)⟩
      intro pc hpc
      have hp := (entries_Insert_perm (orCreate (ch j) (cr j) (d + 1)) item r a
        (isNull_orCreate _ _ _)).mem_iff.1 hpc
      rw [entries_orCreate] at hp
      rcases List.mem_cons.1 hp with hp | hp
      · rw [hp]; exact hfind.1
      · exact (ht j).1 pc hp
    · simp only [Function.update_noteq hj]
      exact ht j
  | case3 d cr ch its item r a h =>
    rw [Insert_here h]
    simpa only [Contained] using ht


/-! ## Erasing through a location -/

theorem perm_cons_eraseP_of_any {β : Type} (p : β → Bool) (l : List β) (h : l.any p = true) :
    ∃ c, p c = true ∧ c ∈ l ∧ l.Perm (c :: l.eraseP p) := by
  obtain ⟨x, hx, hpx⟩ := List.any_eq_true.1 h
  obtain ⟨c, l₁, l₂, _, hc, hl, he⟩ := List.exists_of_eraseP hx hpx
  refine ⟨c, hc, ?_, ?_⟩
  · rw [hl]; simp
  · rw [he, hl]; exact List.perm_middle

/-- A successful erase removes exactly one cell, the one designated. -/
theorem entries_eraseAt_perm (t : QuadTree α) (p : List (Fin 4)) (a : Nat) (t' : QuadTree α)
    (h : eraseAt t p a = some t') :
    ∃ c, c.addr = a ∧ (p, c) ∈ entries t ∧ (entries t).Perm ((p, c) :: entries t') := by
  induction t generalizing p t' with
  | null => simp [eraseAt] at h
  | node d cr ch its ih =>
    cases p with
    | nil =>
      simp only [eraseAt] at h
      split at h
      · rename_i hany
        obtain ⟨c, hc, hmem, hperm⟩ := perm_cons_eraseP_of_any _ its hany
        cases h
        refine ⟨c, by simpa using hc, ?_, ?_⟩
        · simp only [entries, List.mem_append, List.mem_map]
          exact Or.inl ⟨c, hmem, rfl⟩
        · simp only [entries]
          exact ((hperm.map (fun c => (([] : List (Fin 4)), c))).append_right _)
      · cases h
    | cons i p =>
      simp only [eraseAt, Option.map_eq_some'] at h
      obtain ⟨c', hc', rfl⟩ := h
      obtain ⟨c, hc, hmem, hperm⟩ := ih i p c' hc'
      refine ⟨c, hc, ?_, ?_⟩
      · simp only [entries, List.mem_append, List.mem_flatMap, List.mem_map]
        exact Or.inr ⟨i, mem_quadrantOrder i, (p, c), hmem, rfl⟩
      · simp only [entries]
        refine (List.Perm.append_left _ ?_).trans List.perm_middle
        refine perm_flatMap_of_update quadrantOrder quadrantOrder_nodup (mem_quadrantOrder i) ?_ ?_
        · intro j hj
          simp [Function.update_noteq hj]
        · simp only [Function.update_same]
          simpa using hperm.map (fun pc => (i :: pc.1, pc.2))

theorem mem_entries_node {d : Nat} {cr : Fin 4 → olc.rect} {ch : Fin 4 → QuadTree α}
    {its : List (ListCell α)} {p : List (Fin 4)} {c : ListCell α} :
    (p, c) ∈ entries (node d cr ch its) ↔
      (p = [] ∧ c ∈ its) ∨ ∃ i q, p = i :: q ∧ (q, c) ∈ entries (ch i) := by
  simp only [entries, List.mem_append, List.mem_map, List.mem_flatMap, Prod.mk.injEq]
  constructor
  · rintro (⟨c', hc', rfl, rfl⟩ | ⟨i, _, ⟨q, c'⟩, hq, rfl, rfl⟩)
    · exact Or.inl ⟨rfl, hc'⟩
    · exact Or.inr ⟨i, q, rfl, hq⟩
  · rintro (⟨rfl, hc⟩ | ⟨i, q, rfl, hq⟩)
    · exact Or.inl ⟨c, hc, rfl, rfl⟩
    · exact Or.inr ⟨i, mem_quadrantOrder i, (q, c), hq, rfl, rfl⟩

/-- Erasing through the location of a live cell succeeds. -/
theorem eraseAt_isSome_of_mem (t : QuadTree α) (p : List (Fin 4)) (c : ListCell α)
    (h : (p, c) ∈ entries t) : ∃ t', eraseAt t p c.addr = some t' := by
  induction t generalizing p with
  | null => simp [entries] at h
  | node d cr ch its ih =>
    rcases mem_entries_node.1 h with ⟨rfl, hc⟩ | ⟨i, q, rfl, hq⟩
    · have : its.any (fun p => decide (p.addr = c.addr)) = true :=
        List.any_eq_true.2 ⟨c, hc, by simp⟩
      simp [eraseAt, this]
    · obtain ⟨t', ht'⟩ := ih i q hq
      simp [eraseAt, ht']

theorem isNull_eraseAt (t : QuadTree α) (p : List (Fin 4)) (a : Nat) (t' : QuadTree α)
    (h : eraseAt t p a = some t') : t'.isNull = false := by
  cases t with
  | null => simp [eraseAt] at h
  | node d cr ch its =>
    cases p with
    | nil =>
      simp only [eraseAt] at h
      split at h
      · cases h; rfl
      · cases h
    | cons i p =>
      simp only [eraseAt, Option.map_eq_some'] at h
      obtain ⟨c', _, rfl⟩ := h
      rfl

theorem Contained_eraseAt (t : QuadTree α) (p : List (Fin 4)) (a : Nat) (t' : QuadTree α)
    (h : eraseAt t p a = some t') (ht : Contained t) : Contained t' := by
  induction t generalizing p t' with
  | null => simp [eraseAt] at h
  | node d cr ch its ih =>
    cases p with
    | nil =>
      simp only [eraseAt] at h
      split at h
      · cases h; simpa only [Contained] using ht
      · cases h
    | cons i p =>
      simp only [eraseAt, Option.map_eq_some'] at h
      obtain ⟨c', hc', rfl⟩ := h
      simp only [Contained] at ht ⊢
      intro j
      by_cases hj : j = i
      · subst hj
        simp only [Function.update_same]
        refine ⟨?_, ih j p c' hc' (ht j).2⟩
        intro pc hpc
        obtain ⟨c, _, _, hperm⟩ := entries_eraseAt_perm (ch j) p a c' hc'
        exact (ht j).1 pc (hperm.mem_iff.2 (List.mem_cons_of_mem _ hpc))
      · simp only [Function.update_noteq hj]
        exact ht j

/-- The cell read through a location is a cell of the tree, held by the named node. -/
theorem cellAt_mem (t : QuadTree α) (p : List (Fin 4)) (a : Nat) (c : ListCell α)
    (h : cellAt t p a = some c) : (p, c) ∈ entries t ∧ c.addr = a := by
  induction t generalizing p with
  | null => simp [cellAt] at h
  | node d cr ch its ih =>
    cases p with
    | nil =>
      simp only [cellAt] at h
      refine ⟨mem_entries_node.2 (Or.inl ⟨rfl, List.mem_of_find?_eq_some h⟩), ?_⟩
      simpa using List.find?_some h
    | cons i p =>
      simp only [cellAt] at h
      obtain ⟨h1, h2⟩ := ih i p h
      exact ⟨mem_entries_node.2 (Or.inr ⟨i, p, rfl, h1⟩), h2⟩

theorem cellAt_isSome_of_mem (t : QuadTree α) (p : List (Fin 4)) (c : ListCell α)
    (h : (p, c) ∈ entries t) : ∃ c', cellAt t p c.addr = some c' := by
  induction t generalizing p with
  | null => simp [entries] at h
  | node d cr ch its ih =>
    rcases mem_entries_node.1 h with ⟨rfl, hc⟩ | ⟨i, q, rfl, hq⟩
    · simp only [cellAt]
      rw [← Option.isSome_iff_exists, List.find?_isSome]
      exact ⟨c, hc, by simp⟩
    · simpa only [cellAt] using ih i q hq


/-! ## Search -/

theorem sublist_flatMap_of_forall {ι β : Type} (l : List ι) (f g : ι → List β)
    (h : ∀ i, (f i).Sublist (g i)) : (l.flatMap f).Sublist (l.flatMap g) := by
  induction l with
  | nil => simp
  | cons a l ih =>
    simp only [List.flatMap_cons]
    exact (h a).append ih

/-- What `Search` pushes is a sublist of what `GetItems` pushes. -/
theorem Search_sublist_GetItems (t : QuadTree α) (q : olc.rect) :
    (Search t q).Sublist (GetItems t) := by
  induction t with
  | null => simp [Search, GetItems]
  | node d cr ch its ih =>
    simp only [Search, GetItems]
    refine List.Sublist.append ((List.filter_sublist _).map _) ?_
    refine sublist_flatMap_of_forall _ _ _ ?_
    intro i
    split
    · exact List.Sublist.refl _
    · split
      · exact List.Sublist.refl _
      · split
        · exact ih i
        · exact List.nil_sublist _

end QuadTree

namespace olc

/-- The order argument of the pruning test, on one axis and for arbitrary ordered values: an
interval `[rp, rf)` inside `[cp, cf)` that meets `[qp, qf)` makes `[cp, cf)` meet `[qp, qf)`.
The far edges `rf`, `cf`, `qf` are free: nothing is assumed on how they are computed. -/
theorem order_of_contains_of_overlaps {F : Type} [Preorder F] {qp qf cp cf rp rf : F}
    (h1 : cp ≤ rp) (h2 : rf < cf) (k1 : rp < qf) (k2 : qp < rf) : qp < cf ∧ cp < qf :=
  ⟨lt_trans k2 h2, lt_of_le_of_lt h1 k1⟩

/-- The order argument of the containment shortcut, on one axis and for arbitrary ordered
values: when `[cp, cf)` lies inside `[qp, qf)` and `[rp, rf)` inside `[cp, cf)`, and the far edge
`rf` lies strictly beyond `rp`, the interval `[rp, rf)` meets `[qp, qf)`.  The far edges are
free: nothing is assumed on how they are computed. -/
theorem order_of_contains_of_contains {F : Type} [Preorder F] {qp qf cp cf rp rf : F}
    (k1 : qp ≤ cp) (k2 : cf < qf) (h1 : cp ≤ rp) (h2 : rf < cf) (hr : rp < rf) :
    rp < qf ∧ qp < rf :=
  ⟨lt_trans hr (lt_trans h2 k2), lt_of_le_of_lt (le_trans k1 h1) hr⟩

theorem rect.overlaps_of_contains_of_overlaps {c q r : rect}
    (hc : c.Contains r = true) (hq : q.Overlaps r = true) : c.Overlaps q = true := by
  simp only [rect.Contains, rect.Overlaps, Bool.and_eq_true, decide_eq_true_eq, ge_iff_le,
    gt_iff_lt] at *
  obtain ⟨⟨⟨h1, h2⟩, h3⟩, h4⟩ := hc
  obtain ⟨⟨⟨k1, k2⟩, k3⟩, k4⟩ := hq
  have ex := order_of_contains_of_overlaps h1 h2 k1 k2
  have ey := order_of_contains_of_overlaps h3 h4 k3 k4
  exact ⟨⟨⟨ex.1, ex.2⟩, ey.1⟩, ey.2⟩

/-- A rect inside a quadrant that the query contains overlaps the query, provided its far
edges, as `Contains` and `Overlaps` compute them, lie strictly beyond its near edges. -/
theorem rect.overlaps_of_contains_of_contains {c q r : rect}
    (hq : q.Contains c = true) (hc : c.Contains r = true)
    (hx : r.pos.x < r.pos.x + r.size.x) (hy : r.pos.y < r.pos.y + r.size.y) :
    q.Overlaps r = true := by
  simp only [rect.Contains, rect.Overlaps, Bool.and_eq_true, decide_eq_true_eq, ge_iff_le,
    gt_iff_lt] at *
  obtain ⟨⟨⟨h1, h2⟩, h3⟩, h4⟩ := hc
  obtain ⟨⟨⟨k1, k2⟩, k3⟩, k4⟩ := hq
  have ex := order_of_contains_of_contains k1 k2 h1 h2 hx
  have ey := order_of_contains_of_contains k3 k4 h3 h4 hy
  exact ⟨⟨⟨ex.1, ex.2⟩, ey.1⟩, ey.2⟩

theorem rect.Overlaps_comm (a b : rect) : a.Overlaps b = b.Overlaps a := by
  simp only [rect.Overlaps, gt_iff_lt]
  rw [Bool.eq_iff_iff]
  simp only [Bool.and_eq_true, decide_eq_true_eq]
  tauto

/-- A rect overlaps itself as soon as its far edges, as `Overlaps` computes them, lie strictly
beyond its near edges. -/
theorem rect.Overlaps_self {r : rect}
    (hx : r.pos.x < r.pos.x + r.size.x) (hy : r.pos.y < r.pos.y + r.size.y) :
    r.Overlaps r = true := by
  simp only [rect.Overlaps, Bool.and_eq_true, decide_eq_true_eq, gt_iff_lt]
  exact ⟨⟨⟨hx, hx⟩, hy⟩, hy⟩

end olc

namespace QuadTree
variable {α : Type}

/-- No cell whose rect overlaps the query is missed by `Search`. -/
theorem mem_Search_of_overlaps (t : QuadTree α) (q : olc.rect) (ht : Contained t)
    (p : List (Fin 4)) (c : ListCell α) (hc : (p, c) ∈ entries t)
    (ho : q.Overlaps c.first = true) : c.second ∈ Search t q := by
  induction t generalizing p with
  | null => simp [entries] at hc
  | node d cr ch its ih =>
    simp only [Search, List.mem_append, List.mem_map, List.mem_filter, List.mem_flatMap]
    rcases mem_entries_node.1 hc with ⟨rfl, hc'⟩ | ⟨i, p', rfl, hq⟩
    · exact Or.inl ⟨c, ⟨hc', ho⟩, rfl⟩
    · refine Or.inr ⟨i, mem_quadrantOrder i, ?_⟩
      simp only [Contained] at ht
      have hnn : ¬ (ch i).isNull = true := by
        intro hn
        rw [entries_of_isNull hn] at hq
        simp at hq
      rw [if_neg hnn]
      split
      · rw [GetItems_eq_entries]
        exact List.mem_map.2 ⟨(p', c), hq, rfl⟩
      · rw [if_pos (olc.rect.overlaps_of_contains_of_overlaps ((ht i).1 _ hq) ho)]
        exact ih i (ht i).2 p' hq

/-- Whatever `Search` pushes comes from a cell of the tree, and the rect of that cell overlaps
the query as soon as its computed far edges lie strictly beyond its near edges. -/
theorem overlaps_of_mem_Search (t : QuadTree α) (q : olc.rect) (ht : Contained t)
    (x : α) (hx : x ∈ Search t q) :
    ∃ pc ∈ entries t, pc.2.second = x ∧
      (pc.2.first.pos.x < pc.2.first.pos.x + pc.2.first.size.x →
        pc.2.first.pos.y < pc.2.first.pos.y + pc.2.first.size.y →
          q.Overlaps pc.2.first = true) := by
  induction t with
  | null => simp [Search] at hx
  | node d cr ch its ih =>
    simp only [Search, List.mem_append, List.mem_map, List.mem_filter, List.mem_flatMap] at hx
    simp only [Contained] at ht
    rcases hx with ⟨c, ⟨hc, ho⟩, rfl⟩ | ⟨i, _, hi⟩
    · exact ⟨([], c), mem_entries_node.2 (Or.inl ⟨rfl, hc⟩), rfl, fun _ _ => ho⟩
    · split at hi
      · simp at hi
      · split at hi
        · rename_i hcont
          rw [GetItems_eq_entries] at hi
          obtain ⟨⟨p, c⟩, hpc, rfl⟩ := List.mem_map.1 hi
          exact ⟨(i :: p, c), mem_entries_node.2 (Or.inr ⟨i, p, rfl, hpc⟩), rfl,
            fun h1 h2 => olc.rect.overlaps_of_contains_of_contains hcont ((ht i).1 (p, c) hpc) h1 h2⟩
        · split at hi
          · obtain ⟨⟨p, c⟩, hpc, hx, ho⟩ := ih i (ht i).2 hi
            exact ⟨(i :: p, c), mem_entries_node.2 (Or.inr ⟨i, p, rfl, hpc⟩), hx, ho⟩
          · simp at hi


/-! ## Depth -/

theorem depth_create (r : olc.rect) (n : Nat) : depth (create r n : QuadTree α) = n := by
  simp [create, Resize, Clear, depth]

theorem DepthOK_create (r : olc.rect) (n : Nat) : DepthOK (create r n : QuadTree α) := by
  simp [create, Resize, Clear, DepthOK, isNull]

theorem depths_create (r : olc.rect) (n : Nat) : depths (create r n : QuadTree α) = [n] := by
  simp [create, Resize, Clear, depths, quadrantOrder]

theorem depth_Insert (t : QuadTree α) (item : α) (r : olc.rect) (a : Nat) :
    (QuadTree.Insert t item r a).1.depth = t.depth := by
  induction t, item, r, a using QuadTree.Insert.induct with
  | case1 => simp [QuadTree.Insert]
  | case2 d cr ch its item r a i h ih => rw [Insert_descend h]; rfl
  | case3 d cr ch its item r a h => rw [Insert_here h]; rfl

theorem depth_orCreate_of_DepthOK {d : Nat} {cr : Fin 4 → olc.rect} {ch : Fin 4 → QuadTree α}
    {its : List (ListCell α)} (ht : DepthOK (node d cr ch its)) (i : Fin 4) :
    (orCreate (ch i) (cr i) (d + 1)).depth = d + 1 := by
  unfold orCreate
  split
  · exact depth_create _ _
  · rename_i hn
    simp only [DepthOK] at ht
    exact ((ht i).1 (by simpa using hn)).1

theorem DepthOK_orCreate {c : QuadTree α} (hc : DepthOK c) (r : olc.rect) (n : Nat) :
    DepthOK (orCreate c r n) := by
  unfold orCreate
  split
  · exact DepthOK_create r n
  · exact hc

theorem DepthOK_Insert (t : QuadTree α) (item : α) (r : olc.rect) (a : Nat)
    (ht : DepthOK t) : DepthOK (QuadTree.Insert t item r a).1 := by
  induction t, item, r, a using QuadTree.Insert.induct with
  | case1 => simpa [QuadTree.Insert] using ht
  | case2 d cr ch its item r a i h ih =>
    have hd := depth_orCreate_of_DepthOK ht i
    rw [Insert_descend h]
    have hfind := List.find?_some h
    simp only [Bool.and_eq_true, decide_eq_true_eq] at hfind
    have ht' := ht
    simp only [DepthOK] at ht ⊢
    intro j
    by_cases hj : j = i
    · subst hj
      simp only [Function.update_same]
      refine ⟨fun _ => ⟨?_, hfind.2⟩, ih (DepthOK_orCreate (ht j).2 _ _)⟩
      rw [depth_Insert, hd]
    · simp only [Function.update_noteq hj]
      exact ht j
  | case3 d cr ch its item r a h =>
    rw [Insert_here h]
    simpa only [DepthOK] using ht

/-- The descent of `Insert` from a node of depth `d` is at most `MAX_DEPTH - 1 - d` levels. -/
theorem Insert_container_length (t : QuadTree α) (item : α) (r : olc.rect) (a : Nat)
    (ht : DepthOK t) :
    (QuadTree.Insert t item r a).2.container.length ≤ MAX_DEPTH - 1 - t.depth := by
  induction t, item, r, a using QuadTree.Insert.induct with
  | case1 => simp [QuadTree.Insert]
  | case2 d cr ch its item r a i h ih =>
    have hd := depth_orCreate_of_DepthOK ht i
    rw [Insert_descend h]
    have hfind := List.find?_some h
    simp only [Bool.and_eq_true, decide_eq_true_eq] at hfind
    simp only [DepthOK] at ht
    have := ih (DepthOK_orCreate (ht i).2 _ _)
    rw [hd] at this
    simp only [List.length_cons, depth]
    omega
  | case3 d cr ch its item r a h =>
    rw [Insert_here h]
    simp

theorem mem_depths_node {d : Nat} {cr : Fin 4 → olc.rect} {ch : Fin 4 → QuadTree α}
    {its : List (ListCell α)} {x : Nat} :
    x ∈ depths (node d cr ch its) ↔ x = d ∨ ∃ i, x ∈ depths (ch i) := by
  simp only [depths, List.mem_cons, List.mem_flatMap]
  constructor
  · rintro (h | ⟨i, _, hi⟩)
    · exact Or.inl h
    · exact Or.inr ⟨i, hi⟩
  · rintro (h | ⟨i, hi⟩)
    · exact Or.inl h
    · exact Or.inr ⟨i, mem_quadrantOrder i, hi⟩

/-- Every node of the tree after `Insert` is a node of depth below `MAX_DEPTH` or has the depth
of a node that was there before. -/
theorem depths_Insert (t : QuadTree α) (item : α) (r : olc.rect) (a : Nat) (x : Nat)
    (hx : x ∈ depths (QuadTree.Insert t item r a).1) : x ∈ depths t ∨ x < MAX_DEPTH := by
  induction t, item, r, a using QuadTree.Insert.induct with
  | case1 => simp [QuadTree.Insert, depths] at hx
  | case2 d cr ch its item r a i h ih =>
    rw [Insert_descend h] at hx
    have hfind := List.find?_some h
    simp only [Bool.and_eq_true, decide_eq_true_eq] at hfind
    rcases mem_depths_node.1 hx with hx | ⟨j, hj⟩
    · exact Or.inl (mem_depths_node.2 (Or.inl hx))
    · by_cases hji : j = i
      · subst hji
        simp only [Function.update_same] at hj
        rcases ih hj with h' | h'
        · unfold orCreate at h'
          split at h'
          · rw [depths_create] at h'
            simp only [List.mem_singleton] at h'
            exact Or.inr (h' ▸ hfind.2)
          · exact Or.inl (mem_depths_node.2 (Or.inr ⟨j, h'⟩))
        · exact Or.inr h'
      · simp only [Function.update_noteq hji] at hj
        exact Or.inl (mem_depths_node.2 (Or.inr ⟨j, hj⟩))
  | case3 d cr ch its item r a h =>
    rw [Insert_here h] at hx
    exact Or.inl (by simpa only [depths] using hx)

theorem depth_eraseAt (t : QuadTree α) (p : List (Fin 4)) (a : Nat) (t' : QuadTree α)
    (h : eraseAt t p a = some t') : t'.depth = t.depth := by
  cases t with
  | null => simp [eraseAt] at h
  | node d cr ch its =>
    cases p with
    | nil =>
      simp only [eraseAt] at h
      split at h
      · cases h; rfl
      · cases h
    | cons i p =>
      simp only [eraseAt, Option.map_eq_some'] at h
      obtain ⟨c', _, rfl⟩ := h
      rfl

theorem DepthOK_eraseAt (t : QuadTree α) (p : List (Fin 4)) (a : Nat) (t' : QuadTree α)
    (h : eraseAt t p a = some t') (ht : DepthOK t) : DepthOK t' := by
  induction t generalizing p t' with
  | null => simp [eraseAt] at h
  | node d cr ch its ih =>
    cases p with
    | nil =>
      simp only [eraseAt] at h
      split at h
      · cases h; simpa only [DepthOK] using ht
      · cases h
    | cons i p =>
      simp only [eraseAt, Option.map_eq_some'] at h
      obtain ⟨c', hc', rfl⟩ := h
      simp only [DepthOK] at ht ⊢
      intro j
      by_cases hj : j = i
      · subst hj
        simp only [Function.update_same]
        refine ⟨fun _ => ?_, ih j p c' hc' (ht j).2⟩
        rw [depth_eraseAt _ _ _ _ hc']
        refine (ht j).1 ?_
        cases hcj : ch j with
        | null => rw [hcj] at hc'; simp [eraseAt] at hc'
        | node _ _ _ _ => rfl
      · simp only [Function.update_noteq hj]
        exact ht j

/-- A tree whose children were all created by `Insert` has at most `MAX_DEPTH - depth` levels
(one level when `depth` is `MAX_DEPTH - 1` or more). -/
theorem height_le_of_DepthOK (t : QuadTree α) (ht : DepthOK t) :
    height t ≤ 1 + (MAX_DEPTH - 1 - t.depth) := by
  induction t with
  | null => simp [height]
  | node d cr ch its ih =>
    simp only [DepthOK] at ht
    have key : ∀ i, height (ch i) ≤ MAX_DEPTH - 1 - d := by
      intro i
      cases hci : ch i with
      | null => simp [height]
      | node d' cr' ch' its' =>
        have h1 := ih i (ht i).2
        have h2 := (ht i).1 (by rw [hci]; rfl)
        rw [hci] at h1 h2
        simp only [depth] at h1 h2
        omega
    have k0 := key 0
    have k1 := key 1
    have k2 := key 2
    have k3 := key 3
    simp only [height, depth]
    omega

end QuadTree

/-! ## The container invariant -/

namespace QuadTreeContainer
variable {T : Type}

theorem Inv_create (r : olc.rect) (n : Nat) : Inv (create r n : QuadTreeContainer T) := by
  refine ⟨QuadTree.isNull_create r n, ?_, ?_, ?_, ?_, ?_, QuadTree.Contained_create r n⟩ <;>
    simp [create, treeTriples, itemTriples, handles, QuadTree.entries_create]

theorem Inv_Insert {c : QuadTreeContainer T} (hc : Inv c) (item : T) (r : olc.rect) :
    Inv (c.Insert item r) := by
  have hperm := QuadTree.entries_Insert_perm c.rootQuadTree c.nextAddr r (c.nextAddr + 1) hc.root
  have hit := QuadTree.Insert_iterator c.rootQuadTree c.nextAddr r (c.nextAddr + 1)
  refine ⟨?_, ?_, ?_, ?_, ?_, ?_, ?_⟩
  · simp only [Insert]
    rw [QuadTree.isNull_Insert]
    exact hc.root
  · simp only [Insert, treeTriples, itemTriples, List.map_append, List.map_cons, List.map_nil]
    refine ((hperm.map _).trans ?_).trans (List.perm_append_singleton _ _).symm
    simp only [List.map_cons, hit]
    exact List.Perm.cons _ hc.loc
  · simp only [Insert, handles, List.map_append, List.map_cons, List.map_nil]
    rw [List.nodup_append]
    refine ⟨hc.handles_nodup, by simp, ?_⟩
    intro a ha hb
    simp only [List.mem_singleton] at hb
    have := hc.handles_lt a ha
    omega
  · intro h hh
    simp only [Insert, handles, List.map_append, List.map_cons, List.map_nil, List.mem_append,
      List.mem_singleton] at hh ⊢
    rcases hh with hh | hh
    · have := hc.handles_lt h hh
      omega
    · omega
  · simp only [Insert]
    rw [(hperm.map _).nodup_iff]
    simp only [List.map_cons, List.nodup_cons]
    refine ⟨?_, hc.addr_nodup⟩
    intro hmem
    obtain ⟨pc, hpc, he⟩ := List.mem_map.1 hmem
    have := hc.addr_lt pc hpc
    omega
  · intro pc hpc
    simp only [Insert] at hpc ⊢
    rcases List.mem_cons.1 (hperm.mem_iff.1 hpc) with h | h
    · rw [h]; simp
    · have := hc.addr_lt pc h
      omega
  · exact QuadTree.Contained_Insert _ _ _ _ hc.contained

theorem perm_cons_eraseP_of_find {β : Type} (p : β → Bool) (l : List β) (e : β)
    (h : l.find? p = some e) : l.Perm (e :: l.eraseP p) := by
  induction l with
  | nil => simp at h
  | cons a l ih =>
    by_cases ha : p a = true
    · simp only [List.find?_cons, ha] at h
      cases h
      simp [ha]
    · simp only [List.find?_cons, ha] at h
      rw [List.eraseP_cons_of_neg ha]
      exact ((ih h).cons a).trans (List.Perm.swap _ _ _)

/-- Two canonical cells that record the same cell address are the same cell. -/
theorem triple_eq_of_addr {c : QuadTreeContainer T} (hc : Inv c)
    {x y : Nat × List (Fin 4) × Nat} (hx : x ∈ c.itemTriples) (hy : y ∈ c.itemTriples)
    (h : x.2.2 = y.2.2) : x = y := by
  have hn : (c.itemTriples.map (fun x => x.2.2)).Nodup := by
    rw [← (hc.loc.map _).nodup_iff]
    simpa [treeTriples, Function.comp] using hc.addr_nodup
  exact List.inj_on_of_nodup_map hn hx hy h

/-- Two canonical cells with the same handle are the same cell. -/
theorem triple_eq_of_handle {c : QuadTreeContainer T} (hc : Inv c)
    {x y : Nat × List (Fin 4) × Nat} (hx : x ∈ c.itemTriples) (hy : y ∈ c.itemTriples)
    (h : x.1 = y.1) : x = y := by
  have hn : (c.itemTriples.map (fun x => x.1)).Nodup := by
    simpa [itemTriples, handles, Function.comp] using hc.handles_nodup
  exact List.inj_on_of_nodup_map hn hx hy h

/-- The effect of the first statement of `Remove` and `Relocate` on a state that satisfies the
invariant: the erased tree cell is the one that holds the handle. -/
theorem erase_spec {c : QuadTreeContainer T} (hc : Inv c) {h : Nat} {e : QuadTreeItem T}
    (he : c.items.find? (fun e => decide (e.self = h)) = some e) {t : QuadTree Nat}
    (ht : c.rootQuadTree.eraseAt e.location.container e.location.iterator = some t) :
    e.self = h ∧
    c.items.Perm (e :: c.items.eraseP (fun e => decide (e.self = h))) ∧
    ∃ cell : ListCell Nat, cell.second = h ∧ cell.addr = e.location.iterator ∧
      (QuadTree.entries c.rootQuadTree).Perm ((e.location.container, cell) :: QuadTree.entries t) := by
  have hself : e.self = h := by simpa using List.find?_some he
  have hmem : e ∈ c.items := List.mem_of_find?_eq_some he
  refine ⟨hself, perm_cons_eraseP_of_find _ _ _ he, ?_⟩
  obtain ⟨cell, hca, hcm, hperm⟩ := QuadTree.entries_eraseAt_perm _ _ _ _ ht
  refine ⟨cell, ?_, hca, hperm⟩
  have h1 : (cell.second, e.location.container, cell.addr) ∈ c.itemTriples :=
    hc.loc.mem_iff.1 (List.mem_map.2 ⟨_, hcm, rfl⟩)
  have h2 : (e.self, e.location.container, e.location.iterator) ∈ c.itemTriples :=
    List.mem_map.2 ⟨e, hmem, rfl⟩
  have := triple_eq_of_addr hc h1 h2 hca
  simp only [Prod.mk.injEq] at this
  rw [this.1, hself]

theorem Inv_Remove {c c' : QuadTreeContainer T} (hc : Inv c) {h : Nat}
    (hr : c.Remove h = some c') : Inv c' := by
  simp only [Remove] at hr
  split at hr
  · cases hr
  · rename_i e he
    split at hr
    · cases hr
    · rename_i t ht
      cases hr
      obtain ⟨hself, hitems, cell, hcs, hca, hperm⟩ := erase_spec hc he ht
      refine ⟨QuadTree.isNull_eraseAt _ _ _ _ ht, ?_, ?_, ?_, ?_, ?_,
        QuadTree.Contained_eraseAt _ _ _ _ ht hc.contained⟩
      · have h1 : (treeTriples c.rootQuadTree).Perm
            ((h, e.location.container, e.location.iterator) :: treeTriples t) := by
          simpa [treeTriples, hcs, hca] using
            hperm.map (fun pc : List (Fin 4) × ListCell Nat => (pc.2.second, pc.1, pc.2.addr))
        have h2 : c.itemTriples.Perm ((h, e.location.container, e.location.iterator) ::
            (c.items.eraseP (fun e => decide (e.self = h))).map
              (fun e => (e.self, e.location.container, e.location.iterator))) := by
          simpa [itemTriples, hself] using hitems.map
            (fun e : QuadTreeItem T => (e.self, e.location.container, e.location.iterator))
        exact (h1.symm.trans (hc.loc.trans h2)).cons_inv
      · exact hc.handles_nodup.sublist ((List.eraseP_sublist _).map _)
      · intro x hx
        exact hc.handles_lt x ((List.eraseP_sublist _).map _ |>.subset hx)
      · have := (hperm.map (fun pc => pc.2.addr)).nodup_iff.1 hc.addr_nodup
        exact (List.nodup_cons.1 this).2
      · intro pc hpc
        exact hc.addr_lt pc (hperm.mem_iff.2 (List.mem_cons_of_mem _ hpc))


theorem handles_Relocate {c c' : QuadTreeContainer T} {h : Nat} {r : olc.rect}
    (hr : c.Relocate h r = some c') : c'.handles = c.handles := by
  simp only [Relocate] at hr
  split at hr
  · cases hr
  · split at hr
    · cases hr
    · cases hr
      simp only [handles, List.map_map]
      refine List.map_congr_left ?_
      intro e _
      simp only [Function.comp]
      split <;> rfl

theorem length_items_Relocate {c c' : QuadTreeContainer T} {h : Nat} {r : olc.rect}
    (hr : c.Relocate h r = some c') : c'.items.length = c.items.length := by
  have := congrArg List.length (handles_Relocate hr)
  simpa [handles] using this

theorem Inv_Relocate {c c' : QuadTreeContainer T} (hc : Inv c) {h : Nat} {r : olc.rect}
    (hr : c.Relocate h r = some c') : Inv c' := by
  have hh := handles_Relocate hr
  simp only [Relocate] at hr
  split at hr
  · cases hr
  · rename_i e he
    split at hr
    · cases hr
    · rename_i t ht
      have hrem : c.Remove h = some ⟨c.items.eraseP (fun e => decide (e.self = h)), t, c.nextAddr⟩ := by
        simp [Remove, he, ht]
      have hc₁ := Inv_Remove hc hrem
      obtain ⟨hself, hitems, cell, hcs, hca, hperm⟩ := erase_spec hc he ht
      have hnot : h ∉ (c.items.eraseP (fun e => decide (e.self = h))).map (fun e => e.self) := by
        have := (hitems.map (fun e : QuadTreeItem T => e.self)).nodup_iff.1 hc.handles_nodup
        rw [List.map_cons, List.nodup_cons, hself] at this
        exact this.1
      have hins := QuadTree.entries_Insert_perm t h r c.nextAddr hc₁.root
      have hit := QuadTree.Insert_iterator t h r c.nextAddr
      cases hr
      refine ⟨?_, ?_, ?_, ?_, ?_, ?_, QuadTree.Contained_Insert _ _ _ _ hc₁.contained⟩
      · simp only
        rw [QuadTree.isNull_Insert]
        exact hc₁.root
      · have h1 : (treeTriples (QuadTree.Insert t h r c.nextAddr).1).Perm
            ((h, (QuadTree.Insert t h r c.nextAddr).2.container, c.nextAddr) :: treeTriples t) := by
          simpa [treeTriples] using
            hins.map (fun pc : List (Fin 4) × ListCell Nat => (pc.2.second, pc.1, pc.2.addr))
        refine h1.trans ?_
        simp only [itemTriples]
        have h2 := (hitems.map (fun e : QuadTreeItem T =>
          if e.self = h then { e with location := (QuadTree.Insert t h r c.nextAddr).2 } else e)).map
            (fun e : QuadTreeItem T => (e.self, e.location.container, e.location.iterator))
        refine List.Perm.trans ?_ h2.symm
        simp only [List.map_cons, hself, if_true, hit]
        refine List.Perm.cons _ ?_
        refine hc₁.loc.trans ?_
        simp only [itemTriples, List.map_map]
        refine List.Perm.of_eq (List.map_congr_left ?_)
        intro e' he'
        have : e'.self ≠ h := fun heq => hnot (List.mem_map.2 ⟨e', he', heq⟩)
        simp [Function.comp, this]
      · rw [hh]; exact hc.handles_nodup
      · intro x hx
        rw [hh] at hx
        have := hc.handles_lt x hx
        simp only
        omega
      · simp only
        rw [(hins.map _).nodup_iff]
        simp only [List.map_cons, List.nodup_cons]
        refine ⟨?_, hc₁.addr_nodup⟩
        intro hmem
        obtain ⟨pc, hpc, heq⟩ := List.mem_map.1 hmem
        have := hc₁.addr_lt pc hpc
        simp only at this
        omega
      · intro pc hpc
        simp only at hpc ⊢
        rcases List.mem_cons.1 (hins.mem_iff.1 hpc) with h' | h'
        · rw [h']; simp
        · have := hc₁.addr_lt pc h'
          simp only at this
          omega

theorem Inv_Step {c c' : QuadTreeContainer T} (hc : Inv c) (hs : Step c c') : Inv c' := by
  cases hs with
  | insert item r => exact Inv_Insert hc item r
  | remove _ h hr => exact Inv_Remove hc hr
  | relocate _ h r hr => exact Inv_Relocate hc hr

theorem Inv_Steps {c c' : QuadTreeContainer T} (hc : Inv c)
    (hs : Relation.ReflTransGen Step c c') : Inv c' := by
  induction hs with
  | refl => exact hc
  | tail _ hstep ih => exact Inv_Step ih hstep

theorem Inv_of_Reachable {c : QuadTreeContainer T} (hc : Reachable c) : Inv c := by
  obtain ⟨r, n, hs⟩ := hc
  exact Inv_Steps (Inv_create r n) hs


/-! ## Consequences of the invariant -/

theorem GetItems_perm_handles {c : QuadTreeContainer T} (hc : Inv c) :
    (QuadTree.GetItems c.rootQuadTree).Perm c.handles := by
  rw [QuadTree.GetItems_eq_entries]
  have := hc.loc.map (fun x => x.1)
  simpa [treeTriples, itemTriples, handles, Function.comp] using this

theorem Search_nodup {c : QuadTreeContainer T} (hc : Inv c) (q : olc.rect) :
    (c.Search q).Nodup :=
  ((GetItems_perm_handles hc).nodup_iff.2 hc.handles_nodup).sublist
    (QuadTree.Search_sublist_GetItems _ _)

theorem mem_handles_of_mem_Search {c : QuadTreeContainer T} (hc : Inv c) {q : olc.rect}
    {h : Nat} (hh : h ∈ c.Search q) : h ∈ c.handles :=
  (GetItems_perm_handles hc).mem_iff.1 ((QuadTree.Search_sublist_GetItems _ _).subset hh)

/-- Two cells of the tree that hold the same handle are the same cell. -/
theorem entry_eq_of_second {c : QuadTreeContainer T} (hc : Inv c)
    {x y : List (Fin 4) × ListCell Nat} (hx : x ∈ QuadTree.entries c.rootQuadTree)
    (hy : y ∈ QuadTree.entries c.rootQuadTree) (h : x.2.second = y.2.second) : x = y := by
  have hx' : (x.2.second, x.1, x.2.addr) ∈ c.itemTriples :=
    hc.loc.mem_iff.1 (List.mem_map.2 ⟨x, hx, rfl⟩)
  have hy' : (y.2.second, y.1, y.2.addr) ∈ c.itemTriples :=
    hc.loc.mem_iff.1 (List.mem_map.2 ⟨y, hy, rfl⟩)
  have := triple_eq_of_handle hc hx' hy' h
  simp only [Prod.mk.injEq] at this
  exact List.inj_on_of_nodup_map hc.addr_nodup hx hy this.2.2

/-- The recorded location of a valid handle designates a live cell of the tree. -/
theorem exists_entry_of_find {c : QuadTreeContainer T} (hc : Inv c) {h : Nat}
    {e : QuadTreeItem T} (he : c.items.find? (fun e => decide (e.self = h)) = some e) :
    ∃ cell : ListCell Nat, (e.location.container, cell) ∈ QuadTree.entries c.rootQuadTree ∧
      cell.addr = e.location.iterator ∧ cell.second = h := by
  have hself : e.self = h := by simpa using List.find?_some he
  have h2 : (e.self, e.location.container, e.location.iterator) ∈ c.itemTriples :=
    List.mem_map.2 ⟨e, List.mem_of_find?_eq_some he, rfl⟩
  obtain ⟨pc, hpc, heq⟩ := List.mem_map.1 (hc.loc.mem_iff.2 h2)
  simp only [Prod.mk.injEq] at heq
  refine ⟨pc.2, ?_, heq.2.2, heq.1.trans hself⟩
  rw [← heq.2.1]
  exact hpc

theorem exists_find_of_mem_handles {c : QuadTreeContainer T} {h : Nat} (hh : h ∈ c.handles) :
    ∃ e, c.items.find? (fun e => decide (e.self = h)) = some e := by
  rw [← Option.isSome_iff_exists, List.find?_isSome]
  obtain ⟨e, he, rfl⟩ := List.mem_map.1 hh
  exact ⟨e, he, by simp⟩

theorem mem_handles_of_find {c : QuadTreeContainer T} {h : Nat} {e : QuadTreeItem T}
    (he : c.items.find? (fun e => decide (e.self = h)) = some e) : h ∈ c.handles := by
  have hself : e.self = h := by simpa using List.find?_some he
  exact List.mem_map.2 ⟨e, List.mem_of_find?_eq_some he, hself⟩

/-- The rect read through the handle held by a tree cell is the rect of that cell. -/
theorem rectOf_of_mem_entries {c : QuadTreeContainer T} (hc : Inv c)
    {pc : List (Fin 4) × ListCell Nat} (hpc : pc ∈ QuadTree.entries c.rootQuadTree) :
    c.rectOf pc.2.second = some pc.2.first := by
  have hmem : pc.2.second ∈ c.handles := by
    have := hc.loc.mem_iff.1 (List.mem_map.2 ⟨pc, hpc, rfl⟩)
    obtain ⟨e, he, heq⟩ := List.mem_map.1 this
    simp only [Prod.mk.injEq] at heq
    exact List.mem_map.2 ⟨e, he, heq.1⟩
  obtain ⟨e, he⟩ := exists_find_of_mem_handles hmem
  obtain ⟨cell, hcell, hca, hcs⟩ := exists_entry_of_find hc he
  have h1 := entry_eq_of_second hc hcell hpc hcs
  obtain ⟨c', hc'⟩ := QuadTree.cellAt_isSome_of_mem _ _ _ hcell
  obtain ⟨hm, ha⟩ := QuadTree.cellAt_mem _ _ _ _ hc'
  have h2 : ((e.location.container, c') : List (Fin 4) × ListCell Nat) = (e.location.container, cell) :=
    List.inj_on_of_nodup_map hc.addr_nodup hm hcell ha
  simp only [Prod.mk.injEq, true_and] at h2
  simp only [rectOf, he]
  rw [← hca, hc', h2]
  simp only [Option.map_some', Option.some.injEq]
  rw [← h1]

/-- A rect read through a handle is the rect of the tree cell that holds the handle. -/
theorem mem_entries_of_rectOf {c : QuadTreeContainer T} (hc : Inv c) {h : Nat} {r : olc.rect}
    (hr : c.rectOf h = some r) :
    ∃ pc ∈ QuadTree.entries c.rootQuadTree, pc.2.second = h ∧ pc.2.first = r := by
  simp only [rectOf] at hr
  split at hr
  · cases hr
  · rename_i e he
    obtain ⟨cell, hcell, _, hcs⟩ := exists_entry_of_find hc he
    have := rectOf_of_mem_entries hc hcell
    simp only [rectOf, hcs, he] at this
    rw [this] at hr
    exact ⟨_, hcell, hcs, by simpa using hr⟩

theorem rectOf_isSome_of_mem_handles {c : QuadTreeContainer T} (hc : Inv c) {h : Nat}
    (hh : h ∈ c.handles) : ∃ r, c.rectOf h = some r := by
  obtain ⟨e, he⟩ := exists_find_of_mem_handles hh
  obtain ⟨cell, hcell, _, hcs⟩ := exists_entry_of_find hc he
  exact ⟨cell.first, hcs ▸ rectOf_of_mem_entries hc hcell⟩

theorem mem_handles_of_rectOf {c : QuadTreeContainer T} {h : Nat} {r : olc.rect}
    (hr : c.rectOf h = some r) : h ∈ c.handles := by
  simp only [rectOf] at hr
  split at hr
  · cases hr
  · rename_i e he
    exact mem_handles_of_find he

/-- Soundness of `Search` for rects whose computed far edges lie strictly beyond their near
edges. -/
theorem not_mem_Search_of_not_overlaps {c : QuadTreeContainer T} (hc : Inv c) {h : Nat}
    {r q : olc.rect} (hr : c.rectOf h = some r)
    (hx : r.pos.x < r.pos.x + r.size.x) (hy : r.pos.y < r.pos.y + r.size.y)
    (hq : q.Overlaps r = false) : h ∉ c.Search q := by
  intro hmem
  obtain ⟨pc, hpc, hs, ho⟩ := QuadTree.overlaps_of_mem_Search _ q hc.contained h hmem
  obtain ⟨pc', hpc', hs', hf'⟩ := mem_entries_of_rectOf hc hr
  have := entry_eq_of_second hc hpc hpc' (hs.trans hs'.symm)
  subst this
  rw [hf'] at ho
  rw [ho hx hy] at hq
  cases hq

/-- Completeness of `Search`: a stored handle whose rect overlaps the query occurs once. -/
theorem count_Search_of_overlaps {c : QuadTreeContainer T} (hc : Inv c) {h : Nat}
    {r q : olc.rect} (hr : c.rectOf h = some r) (hq : q.Overlaps r = true) :
    (c.Search q).count h = 1 := by
  obtain ⟨pc, hpc, hs, hf⟩ := mem_entries_of_rectOf hc hr
  have hmem : h ∈ c.Search q := by
    have := QuadTree.mem_Search_of_overlaps _ q hc.contained pc.1 pc.2 hpc (hf ▸ hq)
    rwa [hs] at this
  exact List.count_eq_one_of_mem (Search_nodup hc q) hmem


/-! ## Remove, Relocate and runs of Insert -/

theorem Remove_isSome {c : QuadTreeContainer T} (hc : Inv c) {h : Nat} (hh : h ∈ c.handles) :
    ∃ c', c.Remove h = some c' := by
  obtain ⟨e, he⟩ := exists_find_of_mem_handles hh
  obtain ⟨cell, hcell, hca, _⟩ := exists_entry_of_find hc he
  obtain ⟨t, ht⟩ := QuadTree.eraseAt_isSome_of_mem _ _ _ hcell
  rw [hca] at ht
  simp only [Remove, he, ht]
  exact ⟨_, rfl⟩

theorem Remove_facts {c c' : QuadTreeContainer T} (hc : Inv c) {h : Nat}
    (hr : c.Remove h = some c') :
    c'.items.length + 1 = c.items.length ∧ h ∉ c'.handles ∧ h ∈ c.handles ∧
      c'.nextAddr = c.nextAddr := by
  simp only [Remove] at hr
  split at hr
  · cases hr
  · rename_i e he
    split at hr
    · cases hr
    · rename_i t ht
      cases hr
      obtain ⟨hself, hitems, _⟩ := erase_spec hc he ht
      refine ⟨?_, ?_, mem_handles_of_find he, rfl⟩
      · simpa using hitems.length_eq.symm
      · have := (hitems.map (fun e : QuadTreeItem T => e.self)).nodup_iff.1 hc.handles_nodup
        rw [List.map_cons, List.nodup_cons, hself] at this
        exact this.1

theorem Relocate_isSome {c : QuadTreeContainer T} (hc : Inv c) {h : Nat} (hh : h ∈ c.handles)
    (r : olc.rect) : ∃ c', c.Relocate h r = some c' := by
  obtain ⟨e, he⟩ := exists_find_of_mem_handles hh
  obtain ⟨cell, hcell, hca, _⟩ := exists_entry_of_find hc he
  obtain ⟨t, ht⟩ := QuadTree.eraseAt_isSome_of_mem _ _ _ hcell
  rw [hca] at ht
  simp only [Relocate, he, ht]
  exact ⟨_, rfl⟩

/-- After `Relocate` the rect read through the handle is the new rect. -/
theorem rectOf_Relocate {c c' : QuadTreeContainer T} (hc : Inv c) {h : Nat} {r : olc.rect}
    (hr : c.Relocate h r = some c') : c'.rectOf h = some r := by
  have hc' := Inv_Relocate hc hr
  simp only [Relocate] at hr
  split at hr
  · cases hr
  · rename_i e he
    split at hr
    · cases hr
    · rename_i t ht
      cases hr
      have hins := QuadTree.entries_Insert_perm t h r c.nextAddr
        (QuadTree.isNull_eraseAt _ _ _ _ ht)
      exact rectOf_of_mem_entries hc' (hins.mem_iff.2 (List.mem_cons_self _ _))

/-- A handle that is not in the canonical list and whose address was already handed out stays
out of the canonical list whatever is called next. -/
theorem stale_Step {c c' : QuadTreeContainer T} (hc : Inv c) (hs : Step c c') {h : Nat}
    (h1 : h ∉ c.handles) (h2 : h < c.nextAddr) : h ∉ c'.handles ∧ h < c'.nextAddr := by
  cases hs with
  | insert item r =>
    simp only [Insert, handles, List.map_append, List.map_cons, List.map_nil, List.mem_append,
      List.mem_singleton]
    refine ⟨?_, by omega⟩
    rintro (hm | hm)
    · exact h1 hm
    · omega
  | remove _ h' hr =>
    have hf := Remove_facts hc hr
    refine ⟨?_, by omega⟩
    intro hm
    apply h1
    simp only [Remove] at hr
    split at hr
    · cases hr
    · split at hr
      · cases hr
      · cases hr
        exact ((List.eraseP_sublist _).map _).subset hm
  | relocate _ h' r hr =>
    rw [handles_Relocate hr]
    refine ⟨h1, ?_⟩
    simp only [Relocate] at hr
    split at hr
    · cases hr
    · split at hr
      · cases hr
      · cases hr
        simp only
        omega

theorem stale_Steps {c c' : QuadTreeContainer T} (hc : Inv c)
    (hs : Relation.ReflTransGen Step c c') {h : Nat}
    (h1 : h ∉ c.handles) (h2 : h < c.nextAddr) : h ∉ c'.handles ∧ h < c'.nextAddr := by
  induction hs with
  | refl => exact ⟨h1, h2⟩
  | tail hs' hstep ih => exact stale_Step (Inv_Steps hc hs') hstep ih.1 ih.2

theorem Steps_insertAll (c : QuadTreeContainer T) (l : List (T × olc.rect)) :
    Relation.ReflTransGen Step c (insertAll c l) := by
  induction l generalizing c with
  | nil => exact Relation.ReflTransGen.refl
  | cons x l ih =>
    exact Relation.ReflTransGen.head (Step.insert c x.1 x.2) (ih _)

theorem length_items_insertAll (c : QuadTreeContainer T) (l : List (T × olc.rect)) :
    (insertAll c l).items.length = c.items.length + l.length := by
  induction l generalizing c with
  | nil => rfl
  | cons x l ih =>
    simp only [insertAll, List.foldl_cons] at ih ⊢
    rw [ih]
    simp only [Insert, List.length_append, List.length_cons, List.length_nil]
    omega

theorem items_insertAll (c : QuadTreeContainer T) (l : List (T × olc.rect)) :
    (insertAll c l).items.map (fun e => e.item) =
      c.items.map (fun e => e.item) ++ l.map (fun x => x.1) := by
  induction l generalizing c with
  | nil => simp [insertAll]
  | cons x l ih =>
    simp only [insertAll, List.foldl_cons] at ih ⊢
    rw [ih]
    simp [Insert]

theorem overlaps_insertAll (u : olc.rect) (c : QuadTreeContainer T) (hc : Inv c)
    (l : List (T × olc.rect)) (hl : ∀ x ∈ l, u.Overlaps x.2 = true)
    (hu : ∀ pc ∈ QuadTree.entries c.rootQuadTree, u.Overlaps pc.2.first = true) :
    ∀ pc ∈ QuadTree.entries (insertAll c l).rootQuadTree, u.Overlaps pc.2.first = true := by
  induction l generalizing c with
  | nil => exact hu
  | cons x l ih =>
    simp only [insertAll, List.foldl_cons]
    refine ih (c.Insert x.1 x.2) (Inv_Insert hc _ _) (fun y hy => hl y (List.mem_cons_of_mem _ hy)) ?_
    intro pc hpc
    have hperm := QuadTree.entries_Insert_perm c.rootQuadTree c.nextAddr x.2 (c.nextAddr + 1) hc.root
    rcases List.mem_cons.1 (hperm.mem_iff.1 hpc) with h | h
    · rw [h]; exact hl x (List.mem_cons_self _ _)
    · exact hu pc h


end QuadTreeContainer

/-! ## Further consequences -/

namespace QuadTreeContainer
variable {T : Type}

theorem items_Relocate {c c' : QuadTreeContainer T} {h : Nat} {r : olc.rect}
    (hr : c.Relocate h r = some c') :
    c'.items.map (fun e => (e.self, e.item)) = c.items.map (fun e => (e.self, e.item)) := by
  simp only [Relocate] at hr
  split at hr
  · cases hr
  · split at hr
    · cases hr
    · cases hr
      simp only [List.map_map]
      refine List.map_congr_left ?_
      intro e _
      simp only [Function.comp]
      split <;> rfl

/-- A removed handle is never pushed by a later `Search`, whatever is called in between. -/
theorem not_mem_Search_after_Remove {c c' c'' : QuadTreeContainer T} (hc : Inv c) {h : Nat}
    (hr : c.Remove h = some c') (hs : Relation.ReflTransGen Step c' c'') (q : olc.rect) :
    h ∉ c''.Search q := by
  have hc' := Inv_Remove hc hr
  have hf := Remove_facts hc hr
  have hlt : h < c'.nextAddr := by
    rw [hf.2.2.2]
    exact hc.handles_lt h hf.2.2.1
  have := stale_Steps hc' hs hf.2.1 hlt
  exact fun hm => this.1 (mem_handles_of_mem_Search (Inv_Steps hc' hs) hm)

theorem Reachable_insertAll (r : olc.rect) (n : Nat) (l : List (T × olc.rect)) :
    Reachable (insertAll (create r n : QuadTreeContainer T) l) :=
  ⟨r, n, Steps_insertAll _ l⟩

theorem Search_perm_handles_of_overlaps {c : QuadTreeContainer T} (hc : Inv c) (u : olc.rect)
    (hu : ∀ pc ∈ QuadTree.entries c.rootQuadTree, u.Overlaps pc.2.first = true) :
    (c.Search u).Perm c.handles := by
  refine (List.perm_ext_iff_of_nodup (Search_nodup hc u) hc.handles_nodup).2 ?_
  intro h
  constructor
  · exact mem_handles_of_mem_Search hc
  · intro hh
    have hg := (GetItems_perm_handles hc).mem_iff.2 hh
    rw [QuadTree.GetItems_eq_entries] at hg
    obtain ⟨pc, hpc, rfl⟩ := List.mem_map.1 hg
    exact QuadTree.mem_Search_of_overlaps _ u hc.contained pc.1 pc.2 hpc (hu pc hpc)

end QuadTreeContainer

/-! ## Properties of the specification -/

/-- C1, as stated, fails: on the default universe `[0,0,100,100]` one `Insert` with the rect
`[200,200,5,5]`, which lies outside the universe, stores a handle (handle `0`) that
`Search(universe)` does not return. -/
theorem C1_counterexample :
    ((QuadTreeContainer.create : QuadTreeContainer Unit).Insert ()
        ⟨⟨200, 200⟩, ⟨5, 5⟩⟩).handles = [0] ∧
    ((QuadTreeContainer.create : QuadTreeContainer Unit).Insert ()
        ⟨⟨200, 200⟩, ⟨5, 5⟩⟩).Search ⟨⟨0, 0⟩, ⟨100, 100⟩⟩ = [] := by
  have hins : QuadTree.Insert (QuadTree.create ⟨⟨0, 0⟩, ⟨100, 100⟩⟩ 0) 0 ⟨⟨200, 200⟩, ⟨5, 5⟩⟩ 1 =
      (QuadTree.node 0 (QuadTree.quadrants ⟨⟨0, 0⟩, ⟨100, 100⟩⟩) (fun _ => QuadTree.null)
        [⟨1, ⟨⟨200, 200⟩, ⟨5, 5⟩⟩, 0⟩], ⟨[], 1⟩) := by
    simp only [QuadTree.create, QuadTree.Resize, QuadTree.Clear]
    rw [QuadTree.Insert_here (by
      norm_num [QuadTree.quadrants, olc.rect.Contains, QuadTree.quadrantOrder, MAX_DEPTH])]
    simp
  simp only [QuadTreeContainer.create, QuadTreeContainer.Insert, QuadTreeContainer.Search,
    QuadTreeContainer.handles, hins]
  refine ⟨by simp, ?_⟩
  norm_num [QuadTree.Search, QuadTree.quadrantOrder, QuadTree.isNull, olc.rect.Overlaps]

/-- C1, amended: for every universe rect `u`, every root depth `n` and every sequence of
`Insert(item, rect)` calls on a container built over `u` in which `u.Overlaps(rect)` holds for
each inserted rect, the canonical list holds the inserted items in order under distinct handles
and `Search(u)` returns exactly these handles, each once (as a multiset). -/
theorem C1_full_coverage_of_overlapping (T : Type) (u : olc.rect) (n : Nat)
    (l : List (T × olc.rect)) (hl : ∀ x ∈ l, u.Overlaps x.2 = true) :
    ((QuadTreeContainer.create u n).insertAll l).items.map (fun e => e.item) =
        l.map (fun x => x.1) ∧
    ((QuadTreeContainer.create u n).insertAll l).handles.Nodup ∧
    (((QuadTreeContainer.create u n).insertAll l).Search u).Perm
      ((QuadTreeContainer.create u n).insertAll l).handles := by
  have hinv := QuadTreeContainer.Inv_of_Reachable (QuadTreeContainer.Reachable_insertAll u n l)
  refine ⟨?_, hinv.handles_nodup, ?_⟩
  · rw [QuadTreeContainer.items_insertAll]
    simp [QuadTreeContainer.create]
  · refine QuadTreeContainer.Search_perm_handles_of_overlaps hinv u ?_
    refine QuadTreeContainer.overlaps_insertAll u _ (QuadTreeContainer.Inv_create u n) l hl ?_
    simp [QuadTreeContainer.create, QuadTree.entries_create]

/-- C1, amended, at a concrete input: two items inside the default universe. -/
theorem C1_full_coverage_of_overlapping_witness :
    (∀ x ∈ [((), (⟨⟨10, 10⟩, ⟨5, 5⟩⟩ : olc.rect)), ((), ⟨⟨60, 60⟩, ⟨5, 5⟩⟩)],
        (⟨⟨0, 0⟩, ⟨100, 100⟩⟩ : olc.rect).Overlaps x.2 = true) ∧
    (((QuadTreeContainer.create ⟨⟨0, 0⟩, ⟨100, 100⟩⟩ 0).insertAll
        [((), (⟨⟨10, 10⟩, ⟨5, 5⟩⟩ : olc.rect)), ((), ⟨⟨60, 60⟩, ⟨5, 5⟩⟩)]).Search
          ⟨⟨0, 0⟩, ⟨100, 100⟩⟩).Perm
      ((QuadTreeContainer.create ⟨⟨0, 0⟩, ⟨100, 100⟩⟩ 0).insertAll
        [((), (⟨⟨10, 10⟩, ⟨5, 5⟩⟩ : olc.rect)), ((), ⟨⟨60, 60⟩, ⟨5, 5⟩⟩)]).handles :=
  ⟨by norm_num [olc.rect.Overlaps],
    (C1_full_coverage_of_overlapping Unit ⟨⟨0, 0⟩, ⟨100, 100⟩⟩ 0
      [((), ⟨⟨10, 10⟩, ⟨5, 5⟩⟩), ((), ⟨⟨60, 60⟩, ⟨5, 5⟩⟩)]
      (by norm_num [olc.rect.Overlaps])).2.2⟩

/-- C2, as stated, fails for a rect of height zero: on the default universe the item inserted
with rect `[20,0,10,0]` (sizes non-negative) is pushed down into the north-west child; the query
`[0,0,100,100]` does not overlap that rect, yet it contains the north-west quadrant, so the
handle is returned through `GetItems` without any test. -/
theorem C2_counterexample :
    QuadTreeContainer.Reachable
      ((QuadTreeContainer.create : QuadTreeContainer Unit).Insert () ⟨⟨20, 0⟩, ⟨10, 0⟩⟩) ∧
    ((QuadTreeContainer.create : QuadTreeContainer Unit).Insert ()
        ⟨⟨20, 0⟩, ⟨10, 0⟩⟩).rectOf 0 = some ⟨⟨20, 0⟩, ⟨10, 0⟩⟩ ∧
    (0 ≤ (⟨⟨20, 0⟩, ⟨10, 0⟩⟩ : olc.rect).size.x ∧ 0 ≤ (⟨⟨20, 0⟩, ⟨10, 0⟩⟩ : olc.rect).size.y) ∧
    (⟨⟨0, 0⟩, ⟨100, 100⟩⟩ : olc.rect).Overlaps ⟨⟨20, 0⟩, ⟨10, 0⟩⟩ = false ∧
    0 ∈ ((QuadTreeContainer.create : QuadTreeContainer Unit).Insert ()
        ⟨⟨20, 0⟩, ⟨10, 0⟩⟩).Search ⟨⟨0, 0⟩, ⟨100, 100⟩⟩ := by
  have hins : QuadTree.Insert (QuadTree.create ⟨⟨0, 0⟩, ⟨100, 100⟩⟩ 0) 0 ⟨⟨20, 0⟩, ⟨10, 0⟩⟩ 1 =
      (QuadTree.node 0 (QuadTree.quadrants ⟨⟨0, 0⟩, ⟨100, 100⟩⟩)
        (Function.update (fun _ => QuadTree.null) 0
          (QuadTree.node 1 (QuadTree.quadrants ⟨⟨0, 0⟩, ⟨50, 50⟩⟩) (fun _ => QuadTree.null)
            [⟨1, ⟨⟨20, 0⟩, ⟨10, 0⟩⟩, 0⟩])) [], ⟨[0], 1⟩) := by
    simp only [QuadTree.create, QuadTree.Resize, QuadTree.Clear]
    rw [QuadTree.Insert_descend (i := 0) (by
      norm_num [QuadTree.quadrants, olc.rect.Contains, QuadTree.quadrantOrder, MAX_DEPTH])]
    simp only [QuadTree.orCreate, QuadTree.isNull, QuadTree.create, QuadTree.Resize,
      QuadTree.Clear, if_true]
    rw [QuadTree.Insert_here (by
      norm_num [QuadTree.quadrants, olc.rect.Contains, QuadTree.quadrantOrder, MAX_DEPTH])]
    norm_num [QuadTree.quadrants]
  refine ⟨⟨_, _, Relation.ReflTransGen.single (QuadTreeContainer.Step.insert _ _ _)⟩,
    ?_, ?_, ?_, ?_⟩
  · simp only [QuadTreeContainer.create, QuadTreeContainer.Insert, QuadTreeContainer.rectOf, hins]
    simp [QuadTree.cellAt]
  · norm_num
  · norm_num [olc.rect.Overlaps]
  · simp only [QuadTreeContainer.create, QuadTreeContainer.Insert, QuadTreeContainer.Search, hins]
    norm_num [QuadTree.Search, QuadTree.GetItems, QuadTree.quadrantOrder, QuadTree.isNull,
      QuadTree.quadrants, olc.rect.Contains, olc.rect.Overlaps, Function.update]

/-- C2, amended: in every state reached by `Insert`, `Remove` and `Relocate` calls, for every
stored handle `h` whose current rect `r` has its far edges, as the rect predicates compute them
(`pos + size`), strictly beyond its near edges on both axes, and for every query rect `q`, if
`q.Overlaps(r)` is false then `h` does not occur in `Search(q)`.  The hypothesis is on the
computed sums, and the proof uses them only through the order. -/
theorem C2_disjoint_query_far_edge (T : Type) (c : QuadTreeContainer T)
    (hc : QuadTreeContainer.Reachable c) (h : Nat) (r q : olc.rect)
    (hr : c.rectOf h = some r)
    (hx : r.pos.x < r.pos.x + r.size.x) (hy : r.pos.y < r.pos.y + r.size.y)
    (hq : q.Overlaps r = false) : h ∉ c.Search q :=
  QuadTreeContainer.not_mem_Search_of_not_overlaps (QuadTreeContainer.Inv_of_Reachable hc)
    hr hx hy hq

/-- A state used at concrete inputs: one item stored in the root of the default universe,
because its rect `[40,40,20,5]` straddles the vertical centre line. -/
theorem rootState_eval (T : Type) (a : T) :
    (QuadTreeContainer.create : QuadTreeContainer T).Insert a ⟨⟨40, 40⟩, ⟨20, 5⟩⟩ =
      ⟨[⟨0, a, ⟨[], 1⟩⟩],
        QuadTree.node 0 (QuadTree.quadrants ⟨⟨0, 0⟩, ⟨100, 100⟩⟩) (fun _ => QuadTree.null)
          [⟨1, ⟨⟨40, 40⟩, ⟨20, 5⟩⟩, 0⟩], 2⟩ := by
  have hins : QuadTree.Insert (QuadTree.create ⟨⟨0, 0⟩, ⟨100, 100⟩⟩ 0) 0 ⟨⟨40, 40⟩, ⟨20, 5⟩⟩ 1 =
      (QuadTree.node 0 (QuadTree.quadrants ⟨⟨0, 0⟩, ⟨100, 100⟩⟩) (fun _ => QuadTree.null)
        [⟨1, ⟨⟨40, 40⟩, ⟨20, 5⟩⟩, 0⟩], ⟨[], 1⟩) := by
    simp only [QuadTree.create, QuadTree.Resize, QuadTree.Clear]
    rw [QuadTree.Insert_here (by
      norm_num [QuadTree.quadrants, olc.rect.Contains, QuadTree.quadrantOrder, MAX_DEPTH])]
    simp
  simp only [QuadTreeContainer.create, QuadTreeContainer.Insert, hins]
  simp

theorem rootState_rectOf (T : Type) (a : T) :
    ((QuadTreeContainer.create : QuadTreeContainer T).Insert a ⟨⟨40, 40⟩, ⟨20, 5⟩⟩).rectOf 0 =
      some ⟨⟨40, 40⟩, ⟨20, 5⟩⟩ := by
  rw [rootState_eval]
  simp [QuadTreeContainer.rectOf, QuadTree.cellAt]

theorem rootState_Reachable (T : Type) (a : T) (r : olc.rect) :
    QuadTreeContainer.Reachable ((QuadTreeContainer.create : QuadTreeContainer T).Insert a r) :=
  ⟨_, _, Relation.ReflTransGen.single (QuadTreeContainer.Step.insert _ _ _)⟩

/-- C2, amended, at a concrete input: the item with rect `[40,40,20,5]` and the query
`[0,0,10,10]`. -/
theorem C2_disjoint_query_far_edge_witness :
    0 ∉ ((QuadTreeContainer.create : QuadTreeContainer Unit).Insert ()
      ⟨⟨40, 40⟩, ⟨20, 5⟩⟩).Search ⟨⟨0, 0⟩, ⟨10, 10⟩⟩ :=
  C2_disjoint_query_far_edge Unit _ (rootState_Reachable Unit () _) 0
    ⟨⟨40, 40⟩, ⟨20, 5⟩⟩ ⟨⟨0, 0⟩, ⟨10, 10⟩⟩ (rootState_rectOf Unit ())
    (by norm_num) (by norm_num) (by norm_num [olc.rect.Overlaps])

/-- C3: in every state reached by `Insert`, `Remove` and `Relocate` calls every stored handle
has a current rect, and for every query rect `q` every stored handle whose current rect `r`
satisfies `q.Overlaps(r)` occurs in `Search(q)` exactly once. -/
theorem C3_search_complete (T : Type) (c : QuadTreeContainer T)
    (hc : QuadTreeContainer.Reachable c) :
    (∀ h ∈ c.handles, ∃ r, c.rectOf h = some r) ∧
    ∀ (h : Nat) (r q : olc.rect), c.rectOf h = some r → q.Overlaps r = true →
      (c.Search q).count h = 1 :=
  ⟨fun _ hh => QuadTreeContainer.rectOf_isSome_of_mem_handles
      (QuadTreeContainer.Inv_of_Reachable hc) hh,
    fun _ _ _ hr hq => QuadTreeContainer.count_Search_of_overlaps
      (QuadTreeContainer.Inv_of_Reachable hc) hr hq⟩

/-- C3 at a concrete input: the item with rect `[40,40,20,5]` and the query `[50,40,10,10]`. -/
theorem C3_search_complete_witness :
    (((QuadTreeContainer.create : QuadTreeContainer Unit).Insert ()
      ⟨⟨40, 40⟩, ⟨20, 5⟩⟩).Search ⟨⟨50, 40⟩, ⟨10, 10⟩⟩).count 0 = 1 :=
  (C3_search_complete Unit _ (rootState_Reachable Unit () _)).2 0
    ⟨⟨40, 40⟩, ⟨20, 5⟩⟩ ⟨⟨50, 40⟩, ⟨10, 10⟩⟩ (rootState_rectOf Unit ())
    (by norm_num [olc.rect.Overlaps])

/-- What `size()` answers before and after a `Remove` when the canonical list holds exactly
`2 ^ 16` entries. -/
theorem size_Remove_of_length (T : Type) (u : olc.rect) (n : Nat) (l : List (T × olc.rect))
    (hl : l.length = 65536) :
    ((QuadTreeContainer.create u n).insertAll l).items.length = 65536 ∧
    ((QuadTreeContainer.create u n).insertAll l).size = 0 ∧
    ∀ h ∈ ((QuadTreeContainer.create u n).insertAll l).handles,
      ∃ c', ((QuadTreeContainer.create u n).insertAll l).Remove h = some c' ∧
        c'.size = 65535 := by
  have hlen : ((QuadTreeContainer.create u n).insertAll l).items.length = 65536 := by
    rw [QuadTreeContainer.length_items_insertAll, hl]
    simp [QuadTreeContainer.create]
  have hinv := QuadTreeContainer.Inv_of_Reachable (QuadTreeContainer.Reachable_insertAll u n l)
  refine ⟨hlen, ?_, ?_⟩
  · simp only [QuadTreeContainer.size, hlen]
    norm_num
  · intro h hh
    obtain ⟨c', hc'⟩ := QuadTreeContainer.Remove_isSome hinv hh
    refine ⟨c', hc', ?_⟩
    have := (QuadTreeContainer.Remove_facts hinv hc').1
    have hlen' : c'.items.length = 65535 := by omega
    simp only [QuadTreeContainer.size, hlen']
    norm_num

/-- C4 fails on the code where `size()` wraps: after 65536 calls of `Insert` the canonical list
has 65536 entries and `size()`, whose result type is `uint16_t`, answers 0; `Remove` of any of
the stored handles succeeds, leaves 65535 entries, and `size()` then answers 65535, which is not
one less than before. -/
theorem C4_size_wraps_on_Remove :
    ((QuadTreeContainer.create : QuadTreeContainer Unit).insertAll
        (List.replicate 65536 ((), ⟨⟨0, 0⟩, ⟨1, 1⟩⟩))).items.length = 65536 ∧
    ((QuadTreeContainer.create : QuadTreeContainer Unit).insertAll
        (List.replicate 65536 ((), ⟨⟨0, 0⟩, ⟨1, 1⟩⟩))).size = 0 ∧
    ∀ h ∈ ((QuadTreeContainer.create : QuadTreeContainer Unit).insertAll
        (List.replicate 65536 ((), ⟨⟨0, 0⟩, ⟨1, 1⟩⟩))).handles,
      ∃ c', ((QuadTreeContainer.create : QuadTreeContainer Unit).insertAll
          (List.replicate 65536 ((), ⟨⟨0, 0⟩, ⟨1, 1⟩⟩))).Remove h = some c' ∧
        c'.size = 65535 :=
  size_Remove_of_length Unit ⟨⟨0, 0⟩, ⟨100, 100⟩⟩ 0 _ (List.length_replicate _ _)

/-- C5, as stated, fails for a rect of height zero: item `A` is inserted at `[40,40,20,5]` and
relocated to `[40,50,20,0]`, which does not overlap the first rect; `Relocate` succeeds, and
`Search([40,50,20,0])` does not return the handle of `A`. -/
theorem C5_counterexample :
    QuadTreeContainer.Reachable
      ((QuadTreeContainer.create : QuadTreeContainer Unit).Insert () ⟨⟨40, 40⟩, ⟨20, 5⟩⟩) ∧
    ((QuadTreeContainer.create : QuadTreeContainer Unit).Insert ()
      ⟨⟨40, 40⟩, ⟨20, 5⟩⟩).rectOf 0 = some ⟨⟨40, 40⟩, ⟨20, 5⟩⟩ ∧
    (⟨⟨40, 50⟩, ⟨20, 0⟩⟩ : olc.rect).Overlaps ⟨⟨40, 40⟩, ⟨20, 5⟩⟩ = false ∧
    ∃ c', ((QuadTreeContainer.create : QuadTreeContainer Unit).Insert ()
        ⟨⟨40, 40⟩, ⟨20, 5⟩⟩).Relocate 0 ⟨⟨40, 50⟩, ⟨20, 0⟩⟩ = some c' ∧
      0 ∉ c'.Search ⟨⟨40, 50⟩, ⟨20, 0⟩⟩ := by
  refine ⟨rootState_Reachable Unit () _, rootState_rectOf Unit (), ?_, ?_⟩
  · norm_num [olc.rect.Overlaps]
  · rw [rootState_eval]
    have hins : QuadTree.Insert
        (QuadTree.node 0 (QuadTree.quadrants ⟨⟨0, 0⟩, ⟨100, 100⟩⟩) (fun _ => QuadTree.null) [])
        0 ⟨⟨40, 50⟩, ⟨20, 0⟩⟩ 2 =
        (QuadTree.node 0 (QuadTree.quadrants ⟨⟨0, 0⟩, ⟨100, 100⟩⟩) (fun _ => QuadTree.null)
          [⟨2, ⟨⟨40, 50⟩, ⟨20, 0⟩⟩, 0⟩], ⟨[], 2⟩) := by
      rw [QuadTree.Insert_here (by
        norm_num [QuadTree.quadrants, olc.rect.Contains, QuadTree.quadrantOrder, MAX_DEPTH])]
      simp
    simp only [QuadTreeContainer.Relocate, List.find?, decide_True, QuadTree.eraseAt,
      List.any_cons, List.any_nil, Bool.or_false, if_true, List.eraseP_cons_of_pos, hins]
    refine ⟨_, rfl, ?_⟩
    norm_num [QuadTreeContainer.Search, QuadTree.Search, QuadTree.quadrantOrder,
      QuadTree.isNull, olc.rect.Overlaps]

/-- C5, amended: in every state reached by `Insert`, `Remove` and `Relocate` calls, for every
stored handle `h` with current rect `r1` and every rect `r2` that does not overlap `r1` and
whose far edges, as the rect predicates compute them (`pos + size`), lie strictly beyond its
near edges on both axes, `Relocate(h, r2)` succeeds and afterwards `Search(r1)` does not contain
`h`, `Search(r2)` contains `h`, `size()` is unchanged, every canonical entry keeps its handle
and its item, and the current rect of `h` is `r2`.  The hypothesis is on the computed sums, and
the proof uses them only through the order. -/
theorem C5_relocate_far_edge (T : Type) (c : QuadTreeContainer T)
    (hc : QuadTreeContainer.Reachable c) (h : Nat) (r1 r2 : olc.rect)
    (h1 : c.rectOf h = some r1)
    (hx : r2.pos.x < r2.pos.x + r2.size.x) (hy : r2.pos.y < r2.pos.y + r2.size.y)
    (hd : r2.Overlaps r1 = false) :
    ∃ c', c.Relocate h r2 = some c' ∧ h ∉ c'.Search r1 ∧ h ∈ c'.Search r2 ∧
      c'.size = c.size ∧
      c'.items.map (fun e => (e.self, e.item)) = c.items.map (fun e => (e.self, e.item)) ∧
      c'.rectOf h = some r2 := by
  have hinv := QuadTreeContainer.Inv_of_Reachable hc
  obtain ⟨c', hc'⟩ := QuadTreeContainer.Relocate_isSome hinv
    (QuadTreeContainer.mem_handles_of_rectOf h1) r2
  have hinv' := QuadTreeContainer.Inv_Relocate hinv hc'
  have hrect := QuadTreeContainer.rectOf_Relocate hinv hc'
  refine ⟨c', hc', ?_, ?_, ?_, QuadTreeContainer.items_Relocate hc', hrect⟩
  · refine QuadTreeContainer.not_mem_Search_of_not_overlaps hinv' hrect hx hy ?_
    rw [olc.rect.Overlaps_comm]
    exact hd
  · have := QuadTreeContainer.count_Search_of_overlaps hinv' hrect
      (olc.rect.Overlaps_self hx hy)
    exact List.count_pos_iff.1 (by omega)
  · simp only [QuadTreeContainer.size, QuadTreeContainer.length_items_Relocate hc']

/-- C5, amended, at a concrete input: the item at `[40,40,20,5]` is relocated to
`[40,50,20,5]`. -/
theorem C5_relocate_far_edge_witness :
    ∃ c', ((QuadTreeContainer.create : QuadTreeContainer Unit).Insert ()
        ⟨⟨40, 40⟩, ⟨20, 5⟩⟩).Relocate 0 ⟨⟨40, 50⟩, ⟨20, 5⟩⟩ = some c' ∧
      0 ∉ c'.Search ⟨⟨40, 40⟩, ⟨20, 5⟩⟩ ∧ 0 ∈ c'.Search ⟨⟨40, 50⟩, ⟨20, 5⟩⟩ ∧
      c'.size = ((QuadTreeContainer.create : QuadTreeContainer Unit).Insert ()
        ⟨⟨40, 40⟩, ⟨20, 5⟩⟩).size := by
  obtain ⟨c', h1, h2, h3, h4, _⟩ := C5_relocate_far_edge Unit _
    (rootState_Reachable Unit () _) 0 ⟨⟨40, 40⟩, ⟨20, 5⟩⟩ ⟨⟨40, 50⟩, ⟨20, 5⟩⟩
    (rootState_rectOf Unit ()) (by norm_num) (by norm_num) (by norm_num [olc.rect.Overlaps])
  exact ⟨c', h1, h2, h3, h4⟩

namespace QuadTreeContainer
variable {T : Type}

theorem DepthOK_Step {c c' : QuadTreeContainer T} (hs : Step c c')
    (hc : QuadTree.DepthOK c.rootQuadTree) :
    QuadTree.DepthOK c'.rootQuadTree ∧ c'.rootQuadTree.depth = c.rootQuadTree.depth := by
  cases hs with
  | insert item r =>
    exact ⟨QuadTree.DepthOK_Insert _ _ _ _ hc, QuadTree.depth_Insert _ _ _ _⟩
  | remove _ h hr =>
    simp only [Remove] at hr
    split at hr
    · cases hr
    · split at hr
      · cases hr
      · rename_i t ht
        cases hr
        exact ⟨QuadTree.DepthOK_eraseAt _ _ _ _ ht hc, QuadTree.depth_eraseAt _ _ _ _ ht⟩
  | relocate _ h r hr =>
    simp only [Relocate] at hr
    split at hr
    · cases hr
    · split at hr
      · cases hr
      · rename_i t ht
        cases hr
        refine ⟨QuadTree.DepthOK_Insert _ _ _ _ (QuadTree.DepthOK_eraseAt _ _ _ _ ht hc), ?_⟩
        simp only
        rw [QuadTree.depth_Insert, QuadTree.depth_eraseAt _ _ _ _ ht]

theorem DepthOK_Steps {c c' : QuadTreeContainer T} (hs : Relation.ReflTransGen Step c c')
    (hc : QuadTree.DepthOK c.rootQuadTree) :
    QuadTree.DepthOK c'.rootQuadTree ∧ c'.rootQuadTree.depth = c.rootQuadTree.depth := by
  induction hs with
  | refl => exact ⟨hc, rfl⟩
  | tail _ hstep ih =>
    have := DepthOK_Step hstep ih.1
    exact ⟨this.1, this.2.trans ih.2⟩

end QuadTreeContainer

theorem QuadTree.depths_lt_of_DepthOK {α : Type} (t : QuadTree α) (ht : t.DepthOK) :
    ∀ x ∈ t.depths, x = t.depth ∨ x < MAX_DEPTH := by
  induction t with
  | null => simp [QuadTree.depths]
  | node d cr ch its ih =>
    intro x hx
    simp only [QuadTree.DepthOK] at ht
    rcases QuadTree.mem_depths_node.1 hx with hx | ⟨i, hi⟩
    · exact Or.inl hx
    · right
      rcases ih i (ht i).2 x hi with h | h
      · have hnn : (ch i).isNull = false := by
          cases hci : ch i with
          | null => rw [hci] at hi; simp [QuadTree.depths] at hi
          | node _ _ _ _ => rfl
        have := (ht i).1 hnn
        omega
      · exact h

/-- C6: `Insert` is a total function (its recursion is well founded: a call on an existing child
goes to a smaller tree, a call on a freshly made child has `depth + 1 < MAX_DEPTH`).  On a tree
whose children were all made by `Insert`, started at a node of depth `d` it returns a location at
most `MAX_DEPTH - 1 - d` levels below, keeps that shape property, and the tree then holds exactly
one more cell, the inserted pair, in the node named by the location.  On every tree, each node
after the call has depth below `MAX_DEPTH` or the depth of a node present before.  A container
whose root has depth 0 never has a tree of more than `MAX_DEPTH` levels nor a node of depth
`MAX_DEPTH` or more, whatever `Insert`, `Remove` and `Relocate` calls are made; and 10,000
`Insert` calls (with any rects) give `size() = 10,000`. -/
theorem C6_depth_termination :
    (∀ (α : Type) (t : QuadTree α) (item : α) (r : olc.rect) (a : Nat),
      t.DepthOK → t.isNull = false →
        (QuadTree.Insert t item r a).2.container.length ≤ MAX_DEPTH - 1 - t.depth ∧
        (QuadTree.Insert t item r a).1.DepthOK ∧
        (QuadTree.Insert t item r a).1.entries.Perm
          (((QuadTree.Insert t item r a).2.container, ⟨a, r, item⟩) :: t.entries)) ∧
    (∀ (α : Type) (t : QuadTree α) (item : α) (r : olc.rect) (a : Nat),
      ∀ x ∈ (QuadTree.Insert t item r a).1.depths, x ∈ t.depths ∨ x < MAX_DEPTH) ∧
    (∀ (T : Type) (u : olc.rect) (c : QuadTreeContainer T),
      Relation.ReflTransGen QuadTreeContainer.Step (QuadTreeContainer.create u 0) c →
        c.rootQuadTree.height ≤ MAX_DEPTH ∧ ∀ x ∈ c.rootQuadTree.depths, x < MAX_DEPTH) ∧
    (∀ (T : Type) (u : olc.rect) (n : Nat) (l : List (T × olc.rect)),
      l.length = 10000 → ((QuadTreeContainer.create u n).insertAll l).size = 10000) := by
  refine ⟨?_, ?_, ?_, ?_⟩
  · intro α t item r a ht hn
    exact ⟨QuadTree.Insert_container_length t item r a ht, QuadTree.DepthOK_Insert t item r a ht,
      QuadTree.entries_Insert_perm t item r a hn⟩
  · intro α t item r a x hx
    exact QuadTree.depths_Insert t item r a x hx
  · intro T u c hs
    have h0 : QuadTree.DepthOK (QuadTreeContainer.create u 0 : QuadTreeContainer T).rootQuadTree :=
      QuadTree.DepthOK_create u 0
    obtain ⟨h1, h2⟩ := QuadTreeContainer.DepthOK_Steps hs h0
    have h3 : c.rootQuadTree.depth = 0 := by
      rw [h2]
      exact QuadTree.depth_create u 0
    refine ⟨?_, ?_⟩
    · have := QuadTree.height_le_of_DepthOK _ h1
      rw [h3] at this
      simp only [MAX_DEPTH] at this ⊢
      omega
    · intro x hx
      rcases QuadTree.depths_lt_of_DepthOK _ h1 x hx with h | h
      · rw [h, h3]; simp [MAX_DEPTH]
      · exact h
  · intro T u n l hl
    simp only [QuadTreeContainer.size, QuadTreeContainer.length_items_insertAll, hl]
    simp [QuadTreeContainer.create]

/-- C6 at a concrete input: 10,000 items with pairwise disjoint 1x1 rects, the `k`-th at
`(k, 0)`. -/
theorem C6_depth_termination_witness :
    ((QuadTreeContainer.create ⟨⟨0, 0⟩, ⟨100000, 100000⟩⟩ 0).insertAll
      ((List.range 10000).map (fun (k : Nat) => ((), (⟨⟨(k : ℚ), 0⟩, ⟨1, 1⟩⟩ : olc.rect))))).size
      = 10000 :=
  C6_depth_termination.2.2.2 Unit _ 0 _ (by rw [List.length_map, List.length_range])

/-- C7: on a container over the universe `[0,0,100,100]`, after `Insert` of `A` with rect
`[10,10,5,5]` (its handle is `0`), `Search([0,0,100,100])` returns exactly `[A]` and
`Search([50,50,10,10])` returns the empty list; `Remove(A)` succeeds and afterwards
`Search([0,0,100,100])` returns the empty list. -/
theorem C7_concrete_scenario (T : Type) (a : T) :
    ((QuadTreeContainer.create ⟨⟨0, 0⟩, ⟨100, 100⟩⟩ 0 : QuadTreeContainer T).Insert a
      ⟨⟨10, 10⟩, ⟨5, 5⟩⟩).handles = [0] ∧
    ((QuadTreeContainer.create ⟨⟨0, 0⟩, ⟨100, 100⟩⟩ 0 : QuadTreeContainer T).Insert a
      ⟨⟨10, 10⟩, ⟨5, 5⟩⟩).Search ⟨⟨0, 0⟩, ⟨100, 100⟩⟩ = [0] ∧
    ((QuadTreeContainer.create ⟨⟨0, 0⟩, ⟨100, 100⟩⟩ 0 : QuadTreeContainer T).Insert a
      ⟨⟨10, 10⟩, ⟨5, 5⟩⟩).Search ⟨⟨50, 50⟩, ⟨10, 10⟩⟩ = [] ∧
    ∃ c₂, ((QuadTreeContainer.create ⟨⟨0, 0⟩, ⟨100, 100⟩⟩ 0 : QuadTreeContainer T).Insert a
        ⟨⟨10, 10⟩, ⟨5, 5⟩⟩).Remove 0 = some c₂ ∧
      c₂.handles = [] ∧ c₂.Search ⟨⟨0, 0⟩, ⟨100, 100⟩⟩ = [] := by
  have hins : QuadTree.Insert (QuadTree.create ⟨⟨0, 0⟩, ⟨100, 100⟩⟩ 0) 0 ⟨⟨10, 10⟩, ⟨5, 5⟩⟩ 1 =
      (QuadTree.node 0 (QuadTree.quadrants ⟨⟨0, 0⟩, ⟨100, 100⟩⟩)
        (Function.update (fun _ => QuadTree.null) 0
          (QuadTree.node 1 (QuadTree.quadrants ⟨⟨0, 0⟩, ⟨50, 50⟩⟩)
            (Function.update (fun _ => QuadTree.null) 0
              (QuadTree.node 2 (QuadTree.quadrants ⟨⟨0, 0⟩, ⟨25, 25⟩⟩) (fun _ => QuadTree.null)
                [⟨1, ⟨⟨10, 10⟩, ⟨5, 5⟩⟩, 0⟩])) [])) [], ⟨[0, 0], 1⟩) := by
    simp only [QuadTree.create, QuadTree.Resize, QuadTree.Clear]
    rw [QuadTree.Insert_descend (i := 0) (by
      norm_num [QuadTree.quadrants, olc.rect.Contains, QuadTree.quadrantOrder, MAX_DEPTH])]
    simp only [QuadTree.orCreate, QuadTree.isNull, QuadTree.create, QuadTree.Resize,
      QuadTree.Clear, if_true]
    rw [QuadTree.Insert_descend (i := 0) (by
      norm_num [QuadTree.quadrants, olc.rect.Contains, QuadTree.quadrantOrder, MAX_DEPTH])]
    simp only [QuadTree.orCreate, QuadTree.isNull, QuadTree.create, QuadTree.Resize,
      QuadTree.Clear, if_true]
    rw [QuadTree.Insert_here (by
      norm_num [QuadTree.quadrants, olc.rect.Contains, QuadTree.quadrantOrder, MAX_DEPTH])]
    norm_num [QuadTree.quadrants]
  simp only [QuadTreeContainer.create, QuadTreeContainer.Insert, QuadTreeContainer.Search,
    QuadTreeContainer.handles, QuadTreeContainer.Remove, hins]
  refine ⟨by simp, ?_, ?_, ?_⟩
  · norm_num [QuadTree.Search, QuadTree.GetItems, QuadTree.quadrantOrder, QuadTree.isNull,
      QuadTree.quadrants, olc.rect.Contains, olc.rect.Overlaps, Function.update]
  · norm_num [QuadTree.Search, QuadTree.GetItems, QuadTree.quadrantOrder, QuadTree.isNull,
      QuadTree.quadrants, olc.rect.Contains, olc.rect.Overlaps, Function.update]
  · norm_num [QuadTree.eraseAt, QuadTree.Search, QuadTree.GetItems, QuadTree.quadrantOrder,
      QuadTree.isNull, QuadTree.quadrants, olc.rect.Contains, olc.rect.Overlaps, Function.update]

/-- C8: on a container over the default universe `[0,0,100,100]` holding one item with rect
`[0,0,10,10]` (its handle is `0`), `Search([10,0,10,10])` does not return the item and
`Search([9,0,10,10])` returns it. -/
theorem C8_boundary_edge (T : Type) (a : T) :
    ((QuadTreeContainer.create : QuadTreeContainer T).Insert a
      ⟨⟨0, 0⟩, ⟨10, 10⟩⟩).handles = [0] ∧
    ((QuadTreeContainer.create : QuadTreeContainer T).Insert a
      ⟨⟨0, 0⟩, ⟨10, 10⟩⟩).Search ⟨⟨10, 0⟩, ⟨10, 10⟩⟩ = [] ∧
    ((QuadTreeContainer.create : QuadTreeContainer T).Insert a
      ⟨⟨0, 0⟩, ⟨10, 10⟩⟩).Search ⟨⟨9, 0⟩, ⟨10, 10⟩⟩ = [0] := by
  have hins : QuadTree.Insert (QuadTree.create ⟨⟨0, 0⟩, ⟨100, 100⟩⟩ 0) 0 ⟨⟨0, 0⟩, ⟨10, 10⟩⟩ 1 =
      (QuadTree.node 0 (QuadTree.quadrants ⟨⟨0, 0⟩, ⟨100, 100⟩⟩)
        (Function.update (fun _ => QuadTree.null) 0
          (QuadTree.node 1 (QuadTree.quadrants ⟨⟨0, 0⟩, ⟨50, 50⟩⟩)
            (Function.update (fun _ => QuadTree.null) 0
              (QuadTree.node 2 (QuadTree.quadrants ⟨⟨0, 0⟩, ⟨25, 25⟩⟩)
                (Function.update (fun _ => QuadTree.null) 0
                  (QuadTree.node 3 (QuadTree.quadrants ⟨⟨0, 0⟩, ⟨25 / 2, 25 / 2⟩⟩)
                    (fun _ => QuadTree.null) [⟨1, ⟨⟨0, 0⟩, ⟨10, 10⟩⟩, 0⟩])) [])) [])) [],
        ⟨[0, 0, 0], 1⟩) := by
    simp only [QuadTree.create, QuadTree.Resize, QuadTree.Clear]
    rw [QuadTree.Insert_descend (i := 0) (by
      norm_num [QuadTree.quadrants, olc.rect.Contains, QuadTree.quadrantOrder, MAX_DEPTH])]
    simp only [QuadTree.orCreate, QuadTree.isNull, QuadTree.create, QuadTree.Resize,
      QuadTree.Clear, if_true]
    rw [QuadTree.Insert_descend (i := 0) (by
      norm_num [QuadTree.quadrants, olc.rect.Contains, QuadTree.quadrantOrder, MAX_DEPTH])]
    simp only [QuadTree.orCreate, QuadTree.isNull, QuadTree.create, QuadTree.Resize,
      QuadTree.Clear, if_true]
    rw [QuadTree.Insert_descend (i := 0) (by
      norm_num [QuadTree.quadrants, olc.rect.Contains, QuadTree.quadrantOrder, MAX_DEPTH])]
    simp only [QuadTree.orCreate, QuadTree.isNull, QuadTree.create, QuadTree.Resize,
      QuadTree.Clear, if_true]
    rw [QuadTree.Insert_here (by
      norm_num [QuadTree.quadrants, olc.rect.Contains, QuadTree.quadrantOrder, MAX_DEPTH])]
    norm_num [QuadTree.quadrants]
  simp only [QuadTreeContainer.create, QuadTreeContainer.Insert, QuadTreeContainer.Search,
    QuadTreeContainer.handles, hins]
  refine ⟨by simp, ?_, ?_⟩
  · norm_num [QuadTree.Search, QuadTree.GetItems, QuadTree.quadrantOrder, QuadTree.isNull,
      QuadTree.quadrants, olc.rect.Contains, olc.rect.Overlaps, Function.update]
  · norm_num [QuadTree.Search, QuadTree.GetItems, QuadTree.quadrantOrder, QuadTree.isNull,
      QuadTree.quadrants, olc.rect.Contains, olc.rect.Overlaps, Function.update]

theorem QuadTree.Search_Resize {α : Type} (t : QuadTree α) (b q : olc.rect) :
    QuadTree.Search (QuadTree.Resize t b) q = [] := by
  cases t with
  | null => rfl
  | node d cr ch its =>
    simp [QuadTree.Resize, QuadTree.Clear, QuadTree.Search, QuadTree.isNull]

/-- C9 fails on the code: `QuadTreeContainer::Resize` resizes the root node only and leaves the
canonical list alone.  After `Insert` of one item and `Resize([0,0,100,100])`, every `Search`
is empty, yet `size()` is 1 and `empty()` is false. -/
theorem C9_Resize_keeps_canonical_list (T : Type) (a : T) :
    (((QuadTreeContainer.create : QuadTreeContainer T).Insert a ⟨⟨10, 10⟩, ⟨5, 5⟩⟩).Resize
      ⟨⟨0, 0⟩, ⟨100, 100⟩⟩).size = 1 ∧
    (((QuadTreeContainer.create : QuadTreeContainer T).Insert a ⟨⟨10, 10⟩, ⟨5, 5⟩⟩).Resize
      ⟨⟨0, 0⟩, ⟨100, 100⟩⟩).empty = false ∧
    ∀ q, (((QuadTreeContainer.create : QuadTreeContainer T).Insert a ⟨⟨10, 10⟩, ⟨5, 5⟩⟩).Resize
      ⟨⟨0, 0⟩, ⟨100, 100⟩⟩).Search q = [] := by
  refine ⟨?_, ?_, ?_⟩
  · simp [QuadTreeContainer.Resize, QuadTreeContainer.size, QuadTreeContainer.Insert,
      QuadTreeContainer.create]
  · simp [QuadTreeContainer.Resize, QuadTreeContainer.empty, QuadTreeContainer.Insert,
      QuadTreeContainer.create]
  · intro q
    exact QuadTree.Search_Resize _ _ _

/-- What `size()` and `empty()` answer when the canonical list holds `k * 2 ^ 16 + m` entries. -/
theorem size_insertAll (T : Type) (u : olc.rect) (n : Nat) (l : List (T × olc.rect)) :
    ((QuadTreeContainer.create u n).insertAll l).size = l.length % 2 ^ 16 ∧
    ((QuadTreeContainer.create u n).insertAll l).empty = decide (l.length = 0) := by
  have hlen : ((QuadTreeContainer.create u n).insertAll l).items.length = l.length := by
    rw [QuadTreeContainer.length_items_insertAll]
    simp [QuadTreeContainer.create]
  refine ⟨by simp only [QuadTreeContainer.size, hlen], ?_⟩
  simp only [QuadTreeContainer.empty]
  rw [Bool.eq_iff_iff]
  simp only [List.isEmpty_iff, decide_eq_true_eq]
  rw [← hlen, List.length_eq_zero]

/-- C10 fails on the code: the result type of `size()` is `uint16_t`.  After 65536 calls of
`Insert` on an empty container `size()` answers 0 although `empty()` is false, and after the
1,000,000 calls of `OnUserCreate` it answers 16960. -/
theorem C10_size_wraps (T : Type) (x : T × olc.rect) :
    ((QuadTreeContainer.create : QuadTreeContainer T).insertAll
      (List.replicate 65536 x)).items.length = 65536 ∧
    ((QuadTreeContainer.create : QuadTreeContainer T).insertAll
      (List.replicate 65536 x)).size = 0 ∧
    ((QuadTreeContainer.create : QuadTreeContainer T).insertAll
      (List.replicate 65536 x)).empty = false ∧
    ((QuadTreeContainer.create : QuadTreeContainer T).insertAll
      (List.replicate 1000000 x)).size = 16960 := by
  refine ⟨?_, ?_, ?_, ?_⟩
  · rw [QuadTreeContainer.length_items_insertAll, List.length_replicate]
    simp [QuadTreeContainer.create]
  · rw [(size_insertAll T _ _ _).1, List.length_replicate]
    norm_num
  · rw [(size_insertAll T _ _ _).2, List.length_replicate]
    simp
  · rw [(size_insertAll T _ _ _).1, List.length_replicate]
    norm_num

/-! ## Rect arithmetic and the placement rule -/

/-- C11: for all rects `a` and `b`, `a.Contains(b)` is true iff `b.pos.x >= a.pos.x`,
`b.pos.y >= a.pos.y`, `b.pos.x + b.size.x < a.pos.x + a.size.x` and
`b.pos.y + b.size.y < a.pos.y + a.size.y`; whenever the far edge of `b` is flush with the far
edge of `a` on either axis `a.Contains(b)` is false, and no rect contains itself. -/
theorem C11_Contains_far_edge :
    (∀ a b : olc.rect, a.Contains b = true ↔
      (b.pos.x ≥ a.pos.x ∧ b.pos.y ≥ a.pos.y ∧ b.pos.x + b.size.x < a.pos.x + a.size.x ∧
        b.pos.y + b.size.y < a.pos.y + a.size.y)) ∧
    (∀ a b : olc.rect, (b.pos.x + b.size.x = a.pos.x + a.size.x ∨
        b.pos.y + b.size.y = a.pos.y + a.size.y) → a.Contains b = false) ∧
    (∀ a : olc.rect, a.Contains a = false) := by
  have h1 : ∀ a b : olc.rect, a.Contains b = true ↔
      (b.pos.x ≥ a.pos.x ∧ b.pos.y ≥ a.pos.y ∧ b.pos.x + b.size.x < a.pos.x + a.size.x ∧
        b.pos.y + b.size.y < a.pos.y + a.size.y) := by
    intro a b
    simp only [olc.rect.Contains, Bool.and_eq_true, decide_eq_true_eq]
    tauto
  have h2 : ∀ a b : olc.rect, (b.pos.x + b.size.x = a.pos.x + a.size.x ∨
      b.pos.y + b.size.y = a.pos.y + a.size.y) → a.Contains b = false := by
    intro a b hflush
    rw [← Bool.not_eq_true, h1]
    rintro ⟨_, _, hx, hy⟩
    rcases hflush with h | h
    · exact absurd h (ne_of_lt hx)
    · exact absurd h (ne_of_lt hy)
  exact ⟨h1, h2, fun a => h2 a a (Or.inl rfl)⟩

/-- C12, as stated, fails for a rect of size zero: `a = [0,0,10,10]` and `b = [5,5,0,0]` have
non-negative sizes and `a.Overlaps(b)` is true, yet no point is contained in `b`, so no point is
contained in both. -/
theorem C12_counterexample :
    (0 ≤ (⟨⟨0, 0⟩, ⟨10, 10⟩⟩ : olc.rect).size.x ∧ 0 ≤ (⟨⟨0, 0⟩, ⟨10, 10⟩⟩ : olc.rect).size.y ∧
      0 ≤ (⟨⟨5, 5⟩, ⟨0, 0⟩⟩ : olc.rect).size.x ∧ 0 ≤ (⟨⟨5, 5⟩, ⟨0, 0⟩⟩ : olc.rect).size.y) ∧
    (⟨⟨0, 0⟩, ⟨10, 10⟩⟩ : olc.rect).Overlaps ⟨⟨5, 5⟩, ⟨0, 0⟩⟩ = true ∧
    ¬ ∃ p : olc.vf2d, (⟨⟨0, 0⟩, ⟨10, 10⟩⟩ : olc.rect).ContainsPoint p = true ∧
      (⟨⟨5, 5⟩, ⟨0, 0⟩⟩ : olc.rect).ContainsPoint p = true := by
  refine ⟨by norm_num, by norm_num [olc.rect.Overlaps], ?_⟩
  rintro ⟨p, _, hp⟩
  simp only [olc.rect.ContainsPoint, Bool.and_eq_true, decide_eq_true_eq] at hp
  obtain ⟨⟨⟨h1, h2⟩, _⟩, _⟩ := hp
  linarith

/-- C12, amended: for all rects `a` and `b` of strictly positive width and height,
`a.Overlaps(b)` is true iff there is a point `p` with `a.Contains(p)` and `b.Contains(p)`, that
is iff the half-open intervals `[pos, pos + size)` of `a` and `b` intersect on both axes. -/
theorem C12_Overlaps_iff_common_point (a b : olc.rect)
    (hax : 0 < a.size.x) (hay : 0 < a.size.y) (hbx : 0 < b.size.x) (hby : 0 < b.size.y) :
    a.Overlaps b = true ↔
      ∃ p : olc.vf2d, a.ContainsPoint p = true ∧ b.ContainsPoint p = true := by
  simp only [olc.rect.Overlaps, olc.rect.ContainsPoint, Bool.and_eq_true, decide_eq_true_eq]
  constructor
  · rintro ⟨⟨⟨h1, h2⟩, h3⟩, h4⟩
    refine ⟨⟨max a.pos.x b.pos.x, max a.pos.y b.pos.y⟩, ?_, ?_⟩
    · refine ⟨⟨⟨le_max_left _ _, max_lt (by linarith) h1⟩, le_max_left _ _⟩,
        max_lt (by linarith) h3⟩
    · refine ⟨⟨⟨le_max_right _ _, max_lt (by linarith) (by linarith)⟩, le_max_right _ _⟩,
        max_lt (by linarith) (by linarith)⟩
  · rintro ⟨p, ⟨⟨⟨h1, h2⟩, h3⟩, h4⟩, ⟨⟨k1, k2⟩, k3⟩, k4⟩
    refine ⟨⟨⟨?_, ?_⟩, ?_⟩, ?_⟩ <;> linarith

/-- C12, amended, at a concrete input: `[0,0,10,10]` and `[5,5,10,10]` share a point. -/
theorem C12_Overlaps_iff_common_point_witness :
    ∃ p : olc.vf2d, (⟨⟨0, 0⟩, ⟨10, 10⟩⟩ : olc.rect).ContainsPoint p = true ∧
      (⟨⟨5, 5⟩, ⟨10, 10⟩⟩ : olc.rect).ContainsPoint p = true :=
  (C12_Overlaps_iff_common_point ⟨⟨0, 0⟩, ⟨10, 10⟩⟩ ⟨⟨5, 5⟩, ⟨10, 10⟩⟩
    (by norm_num) (by norm_num) (by norm_num) (by norm_num)).1
    (by norm_num [olc.rect.Overlaps])

theorem QuadTree.find_quadrant_eq_some {cr : Fin 4 → olc.rect} {r : olc.rect} {d : Nat}
    {i : Fin 4} (hd : d + 1 < MAX_DEPTH) (hi : (cr i).Contains r = true)
    (hfirst : ∀ j, j < i → (cr j).Contains r = false) :
    QuadTree.quadrantOrder.find?
      (fun i => (cr i).Contains r && decide (d + 1 < MAX_DEPTH)) = some i := by
  have h0 := hfirst 0
  have h1 := hfirst 1
  have h2 := hfirst 2
  fin_cases i
  · simp [QuadTree.quadrantOrder, List.find?, hd] at hi ⊢
    simp [hi]
  · have := h0 (by decide)
    simp [QuadTree.quadrantOrder, List.find?, hd] at hi ⊢
    simp [hi, this]
  · have := h0 (by decide)
    have := h1 (by decide)
    simp [QuadTree.quadrantOrder, List.find?, hd] at hi ⊢
    simp_all
  · have := h0 (by decide)
    have := h1 (by decide)
    have := h2 (by decide)
    simp [QuadTree.quadrantOrder, List.find?, hd] at hi ⊢
    simp_all

theorem QuadTree.find_quadrant_eq_none {cr : Fin 4 → olc.rect} {r : olc.rect} {d : Nat}
    (h : ¬ d + 1 < MAX_DEPTH ∨ ∀ i, (cr i).Contains r = false) :
    QuadTree.quadrantOrder.find?
      (fun i => (cr i).Contains r && decide (d + 1 < MAX_DEPTH)) = none := by
  rw [List.find?_eq_none]
  intro i _
  rcases h with h | h
  · simp [h]
  · simp [h i]

/-- C13: for a node of depth `d` with quadrants `cr`, children `ch` and local list `its`:
if `d + 1 < MAX_DEPTH` and `i` is the first quadrant (in the order 0, 1, 2, 3) that contains
the rect, `Insert` returns what `Insert` on child `i` returns (the child being created with
bounds `cr i` and depth `d + 1` when the slot is empty), puts the resulting child in slot `i`
and leaves `its` unchanged; otherwise it appends the pair at the end of `its` and returns the
location that names this node and the appended cell. -/
theorem C13_Insert_placement (α : Type) (d : Nat) (cr : Fin 4 → olc.rect)
    (ch : Fin 4 → QuadTree α) (its : List (ListCell α)) (item : α) (r : olc.rect) (a : Nat) :
    (∀ i, d + 1 < MAX_DEPTH → (cr i).Contains r = true →
      (∀ j, j < i → (cr j).Contains r = false) →
      QuadTree.Insert (QuadTree.node d cr ch its) item r a =
        (QuadTree.node d cr (Function.update ch i
            (QuadTree.Insert (QuadTree.orCreate (ch i) (cr i) (d + 1)) item r a).1) its,
          ⟨i :: (QuadTree.Insert (QuadTree.orCreate (ch i) (cr i) (d + 1)) item r a).2.container,
            (QuadTree.Insert (QuadTree.orCreate (ch i) (cr i) (d + 1)) item r a).2.iterator⟩)) ∧
    ((¬ d + 1 < MAX_DEPTH ∨ ∀ i, (cr i).Contains r = false) →
      QuadTree.Insert (QuadTree.node d cr ch its) item r a =
        (QuadTree.node d cr ch (its ++ [⟨a, r, item⟩]), ⟨[], a⟩)) ∧
    (∀ (b : olc.rect) (n : Nat), QuadTree.orCreate (QuadTree.null : QuadTree α) b n =
      QuadTree.node n (QuadTree.quadrants b) (fun _ => QuadTree.null) []) ∧
    (∀ (d' : Nat) (cr' : Fin 4 → olc.rect) (ch' : Fin 4 → QuadTree α)
      (its' : List (ListCell α)) (b : olc.rect) (n : Nat),
      QuadTree.orCreate (QuadTree.node d' cr' ch' its') b n = QuadTree.node d' cr' ch' its') := by
  refine ⟨?_, ?_, ?_, ?_⟩
  · intro i hd hi hfirst
    exact QuadTree.Insert_descend (QuadTree.find_quadrant_eq_some hd hi hfirst)
  · intro h
    exact QuadTree.Insert_here (QuadTree.find_quadrant_eq_none h)
  · intro b n
    simp [QuadTree.orCreate, QuadTree.isNull, QuadTree.create, QuadTree.Resize, QuadTree.Clear]
  · intro d' cr' ch' its' b n
    simp [QuadTree.orCreate, QuadTree.isNull]

/-- C11 at a concrete input: `[5,5,5,5]` is flush with the far edges of `[0,0,10,10]`. -/
theorem C11_Contains_far_edge_witness :
    (⟨⟨0, 0⟩, ⟨10, 10⟩⟩ : olc.rect).Contains ⟨⟨5, 5⟩, ⟨5, 5⟩⟩ = false :=
  C11_Contains_far_edge.2.1 ⟨⟨0, 0⟩, ⟨10, 10⟩⟩ ⟨⟨5, 5⟩, ⟨5, 5⟩⟩ (Or.inl (by norm_num))

/-- C13 at a concrete input: in a fresh root over `[0,0,100,100]` the rect `[40,40,20,5]`
straddles the vertical centre line, no quadrant contains it, and it is appended to the local
list of the root. -/
theorem C13_Insert_placement_witness :
    QuadTree.Insert (QuadTree.node 0 (QuadTree.quadrants ⟨⟨0, 0⟩, ⟨100, 100⟩⟩)
        (fun _ => (QuadTree.null : QuadTree Nat)) []) 7 ⟨⟨40, 40⟩, ⟨20, 5⟩⟩ 3 =
      (QuadTree.node 0 (QuadTree.quadrants ⟨⟨0, 0⟩, ⟨100, 100⟩⟩) (fun _ => QuadTree.null)
        ([] ++ [⟨3, ⟨⟨40, 40⟩, ⟨20, 5⟩⟩, 7⟩]), ⟨[], 3⟩) :=
  (C13_Insert_placement Nat 0 (QuadTree.quadrants ⟨⟨0, 0⟩, ⟨100, 100⟩⟩)
    (fun _ => QuadTree.null) [] 7 ⟨⟨40, 40⟩, ⟨20, 5⟩⟩ 3).2.1
    (Or.inr (by
      intro i
      fin_cases i <;> norm_num [QuadTree.quadrants, olc.rect.Contains]))

theorem olc.rect.Contains_iff (a b : olc.rect) :
    a.Contains b = true ↔
      (b.pos.x ≥ a.pos.x ∧ b.pos.x + b.size.x < a.pos.x + a.size.x) ∧
        (b.pos.y ≥ a.pos.y ∧ b.pos.y + b.size.y < a.pos.y + a.size.y) := by
  simp only [olc.rect.Contains, Bool.and_eq_true, decide_eq_true_eq, and_assoc]

/-- A rect of non-negative width contained in a quadrant lies on the side of the vertical
centre line that the quadrant index tells, and likewise for the horizontal centre line. -/
theorem QuadTree.quadrant_side {b r : olc.rect} (hx : 0 ≤ r.size.x) (hy : 0 ≤ r.size.y)
    {i : Fin 4} (hi : (QuadTree.quadrants b i).Contains r = true) :
    (r.pos.x ≥ b.pos.x + b.size.x / 2 ↔ (i = 1 ∨ i = 3)) ∧
    (r.pos.y ≥ b.pos.y + b.size.y / 2 ↔ (i = 2 ∨ i = 3)) := by
  rw [olc.rect.Contains_iff] at hi
  obtain ⟨⟨h1, h2⟩, h3, h4⟩ := hi
  fin_cases i
  · simp only [QuadTree.quadrants] at h1 h2 h3 h4
    refine ⟨⟨fun h => absurd h (by linarith), fun h => ?_⟩,
      ⟨fun h => absurd h (by linarith), fun h => ?_⟩⟩
    · rcases h with h | h <;> exact absurd h (by decide)
    · rcases h with h | h <;> exact absurd h (by decide)
  · simp only [QuadTree.quadrants] at h1 h2 h3 h4
    refine ⟨⟨fun _ => Or.inl rfl, fun _ => h1⟩,
      ⟨fun h => absurd h (by linarith), fun h => ?_⟩⟩
    rcases h with h | h <;> exact absurd h (by decide)
  · simp only [QuadTree.quadrants] at h1 h2 h3 h4
    refine ⟨⟨fun h => absurd h (by linarith), fun h => ?_⟩,
      ⟨fun _ => Or.inl rfl, fun _ => h3⟩⟩
    rcases h with h | h <;> exact absurd h (by decide)
  · simp only [QuadTree.quadrants] at h1 h2 h3 h4
    exact ⟨⟨fun _ => Or.inr rfl, fun _ => h1⟩, ⟨fun _ => Or.inr rfl, fun _ => h3⟩⟩

/-- At most one quadrant of a bounds rect contains a given rect of non-negative size. -/
theorem QuadTree.quadrant_unique {b r : olc.rect} (hx : 0 ≤ r.size.x) (hy : 0 ≤ r.size.y)
    {i j : Fin 4} (hi : (QuadTree.quadrants b i).Contains r = true)
    (hj : (QuadTree.quadrants b j).Contains r = true) : i = j := by
  have hi' := QuadTree.quadrant_side hx hy hi
  have hj' := QuadTree.quadrant_side hx hy hj
  have e1 : (i = 1 ∨ i = 3) ↔ (j = 1 ∨ j = 3) := hi'.1.symm.trans hj'.1
  have e2 : (i = 2 ∨ i = 3) ↔ (j = 2 ∨ j = 3) := hi'.2.symm.trans hj'.2
  revert e1 e2
  fin_cases i <;> fin_cases j <;> simp

theorem QuadTree.find_eq_of_perm_of_unique {ι : Type} {l l' : List ι} {p : ι → Bool}
    (hp : l.Perm l') (hu : ∀ i j, p i = true → p j = true → i = j) :
    l.find? p = l'.find? p := by
  cases h : l'.find? p with
  | none =>
    rw [List.find?_eq_none] at h ⊢
    exact fun x hx => h x (hp.mem_iff.1 hx)
  | some i =>
    have hpi := List.find?_some h
    have hil : i ∈ l := hp.mem_iff.2 (List.mem_of_find?_eq_some h)
    cases h' : l.find? p with
    | none =>
      rw [List.find?_eq_none] at h'
      exact absurd hpi (h' i hil)
    | some j => rw [hu j i (List.find?_some h') hpi]

namespace QuadTree
variable {α : Type}

theorem InsertWith_descend {ord : List (Fin 4)} {d : Nat} {cr : Fin 4 → olc.rect}
    {ch : Fin 4 → QuadTree α} {its : List (ListCell α)} {item : α} {itemRect : olc.rect}
    {cell : Nat} {i : Fin 4}
    (h : ord.find? (fun i => (cr i).Contains itemRect && decide (d + 1 < MAX_DEPTH)) = some i) :
    InsertWith ord (node d cr ch its) item itemRect cell =
      (node d cr (Function.update ch i
          (InsertWith ord (orCreate (ch i) (cr i) (d + 1)) item itemRect cell).1) its,
        ⟨i :: (InsertWith ord (orCreate (ch i) (cr i) (d + 1)) item itemRect cell).2.container,
          (InsertWith ord (orCreate (ch i) (cr i) (d + 1)) item itemRect cell).2.iterator⟩) := by
  rw [InsertWith]
  split
  · rename_i j hj
    rw [h] at hj
    cases hj
    rfl
  · rename_i hj
    rw [h] at hj
    cases hj

theorem InsertWith_here {ord : List (Fin 4)} {d : Nat} {cr : Fin 4 → olc.rect}
    {ch : Fin 4 → QuadTree α} {its : List (ListCell α)} {item : α} {itemRect : olc.rect}
    {cell : Nat}
    (h : ord.find? (fun i => (cr i).Contains itemRect && decide (d + 1 < MAX_DEPTH)) = none) :
    InsertWith ord (node d cr ch its) item itemRect cell =
      (node d cr ch (its ++ [⟨cell, itemRect, item⟩]), ⟨[], cell⟩) := by
  rw [InsertWith]
  split
  · rename_i j hj
    rw [h] at hj
    cases hj
  · rfl

theorem QuadrantsOK_create (r : olc.rect) (n : Nat) : QuadrantsOK (create r n : QuadTree α) := by
  simp only [create, Resize, Clear, QuadrantsOK]
  exact ⟨⟨r, rfl⟩, fun _ => trivial⟩

theorem QuadrantsOK_orCreate {c : QuadTree α} (hc : QuadrantsOK c) (r : olc.rect) (n : Nat) :
    QuadrantsOK (orCreate c r n) := by
  unfold orCreate
  split
  · exact QuadrantsOK_create r n
  · exact hc

theorem QuadrantsOK_Insert (t : QuadTree α) (item : α) (r : olc.rect) (a : Nat)
    (ht : QuadrantsOK t) : QuadrantsOK (QuadTree.Insert t item r a).1 := by
  induction t, item, r, a using QuadTree.Insert.induct with
  | case1 => simpa [QuadTree.Insert] using ht
  | case2 d cr ch its item r a i h ih =>
    rw [Insert_descend h]
    simp only [QuadrantsOK] at ht ⊢
    refine ⟨ht.1, fun j => ?_⟩
    by_cases hj : j = i
    · subst hj
      simp only [Function.update_same]
      exact ih (QuadrantsOK_orCreate (ht.2 j) _ _)
    · simp only [Function.update_noteq hj]
      exact ht.2 j
  | case3 d cr ch its item r a h =>
    rw [Insert_here h]
    simpa only [QuadrantsOK] using ht

theorem QuadrantsOK_eraseAt (t : QuadTree α) (p : List (Fin 4)) (a : Nat) (t' : QuadTree α)
    (h : eraseAt t p a = some t') (ht : QuadrantsOK t) : QuadrantsOK t' := by
  induction t generalizing p t' with
  | null => simp [eraseAt] at h
  | node d cr ch its ih =>
    cases p with
    | nil =>
      simp only [eraseAt] at h
      split at h
      · cases h; simpa only [QuadrantsOK] using ht
      · cases h
    | cons i p =>
      simp only [eraseAt, Option.map_eq_some'] at h
      obtain ⟨c', hc', rfl⟩ := h
      simp only [QuadrantsOK] at ht ⊢
      refine ⟨ht.1, fun j => ?_⟩
      by_cases hj : j = i
      · subst hj
        simp only [Function.update_same]
        exact ih j p c' hc' (ht.2 j)
      · simp only [Function.update_noteq hj]
        exact ht.2 j

/-- On a tree whose quadrants all come from `Resize`, for a rect of non-negative size, the
order in which the loop of `Insert` tests the quadrants does not change its result. -/
theorem InsertWith_eq_Insert {ord : List (Fin 4)} (hord : ord.Perm quadrantOrder)
    (t : QuadTree α) (item : α) (r : olc.rect) (a : Nat)
    (hx : 0 ≤ r.size.x) (hy : 0 ≤ r.size.y) (ht : QuadrantsOK t) :
    InsertWith ord t item r a = QuadTree.Insert t item r a := by
  induction t, item, r, a using QuadTree.Insert.induct with
  | case1 => simp [QuadTree.Insert, InsertWith]
  | case2 d cr ch its item r a i h ih =>
    simp only [QuadrantsOK] at ht
    obtain ⟨⟨b, rfl⟩, hch⟩ := ht
    have h' := (QuadTree.find_eq_of_perm_of_unique hord (p := fun i =>
      (quadrants b i).Contains r && decide (d + 1 < MAX_DEPTH)) (by
        intro i j hi hj
        simp only [Bool.and_eq_true] at hi hj
        exact quadrant_unique hx hy hi.1 hj.1)).trans h
    rw [Insert_descend h, InsertWith_descend h', ih hx hy (QuadrantsOK_orCreate (hch i) _ _)]
  | case3 d cr ch its item r a h =>
    simp only [QuadrantsOK] at ht
    obtain ⟨⟨b, rfl⟩, hch⟩ := ht
    have h' := (QuadTree.find_eq_of_perm_of_unique hord (p := fun i =>
      (quadrants b i).Contains r && decide (d + 1 < MAX_DEPTH)) (by
        intro i j hi hj
        simp only [Bool.and_eq_true] at hi hj
        exact quadrant_unique hx hy hi.1 hj.1)).trans h
    rw [Insert_here h, InsertWith_here h']

end QuadTree

/-! ## The push-down invariant and the nodes of a tree -/

namespace QuadTree
variable {α : Type}

theorem PushedDown_create (r : olc.rect) (n : Nat) : PushedDown (create r n : QuadTree α) := by
  simp [create, Resize, Clear, PushedDown]

theorem PushedDown_orCreate {c : QuadTree α} (hc : PushedDown c) (r : olc.rect) (n : Nat) :
    PushedDown (orCreate c r n) := by
  unfold orCreate
  split
  · exact PushedDown_create r n
  · exact hc

theorem PushedDown_Insert (t : QuadTree α) (item : α) (r : olc.rect) (a : Nat)
    (ht : PushedDown t) : PushedDown (QuadTree.Insert t item r a).1 := by
  induction t, item, r, a using QuadTree.Insert.induct with
  | case1 => simpa [QuadTree.Insert] using ht
  | case2 d cr ch its item r a i h ih =>
    rw [Insert_descend h]
    simp only [PushedDown] at ht ⊢
    refine ⟨ht.1, fun j => ?_⟩
    by_cases hj : j = i
    · subst hj
      simp only [Function.update_same]
      exact ih (PushedDown_orCreate (ht.2 j) _ _)
    · simp only [Function.update_noteq hj]
      exact ht.2 j
  | case3 d cr ch its item r a h =>
    rw [Insert_here h]
    rw [List.find?_eq_none] at h
    simp only [PushedDown] at ht ⊢
    refine ⟨fun hd c hc i => ?_, ht.2⟩
    rcases List.mem_append.1 hc with hc | hc
    · exact ht.1 hd c hc i
    · simp only [List.mem_singleton] at hc
      subst hc
      have := h i (mem_quadrantOrder i)
      simpa [hd] using this

theorem PushedDown_eraseAt (t : QuadTree α) (p : List (Fin 4)) (a : Nat) (t' : QuadTree α)
    (h : eraseAt t p a = some t') (ht : PushedDown t) : PushedDown t' := by
  induction t generalizing p t' with
  | null => simp [eraseAt] at h
  | node d cr ch its ih =>
    cases p with
    | nil =>
      simp only [eraseAt] at h
      split at h
      · cases h
        simp only [PushedDown] at ht ⊢
        exact ⟨fun hd c hc i => ht.1 hd c (List.mem_of_mem_eraseP hc) i, ht.2⟩
      · cases h
    | cons i p =>
      simp only [eraseAt, Option.map_eq_some'] at h
      obtain ⟨c', hc', rfl⟩ := h
      simp only [PushedDown] at ht ⊢
      refine ⟨ht.1, fun j => ?_⟩
      by_cases hj : j = i
      · subst hj
        simp only [Function.update_same]
        exact ih j p c' hc' (ht.2 j)
      · simp only [Function.update_noteq hj]
        exact ht.2 j

theorem PushedDown_Clear (t : QuadTree α) : PushedDown (Clear t) := by
  cases t with
  | null => trivial
  | node d cr ch its => simp [Clear, PushedDown]

theorem PushedDown_Resize (t : QuadTree α) (r : olc.rect) : PushedDown (Resize t r) := by
  cases t with
  | null => trivial
  | node d cr ch its => simp [Resize, Clear, PushedDown]

theorem QuadrantsOK_Clear (t : QuadTree α) (ht : QuadrantsOK t) : QuadrantsOK (Clear t) := by
  cases t with
  | null => trivial
  | node d cr ch its =>
    simp only [QuadrantsOK] at ht
    simp only [Clear, QuadrantsOK]
    exact ⟨ht.1, fun _ => trivial⟩

theorem QuadrantsOK_Resize (t : QuadTree α) (r : olc.rect) : QuadrantsOK (Resize t r) := by
  cases t with
  | null => trivial
  | node d cr ch its =>
    simp only [Resize, Clear, QuadrantsOK]
    exact ⟨⟨r, rfl⟩, fun _ => trivial⟩

theorem PushedDown_subtreeAt (t : QuadTree α) (p : List (Fin 4)) (ht : PushedDown t) :
    PushedDown (subtreeAt t p) := by
  induction p generalizing t with
  | nil => cases t <;> simpa [subtreeAt] using ht
  | cons i p ih =>
    cases t with
    | null => trivial
    | node d cr ch its =>
      simp only [PushedDown] at ht
      simpa only [subtreeAt] using ih (ch i) (ht.2 i)

theorem Contained_subtreeAt (t : QuadTree α) (p : List (Fin 4)) (ht : Contained t) :
    Contained (subtreeAt t p) := by
  induction p generalizing t with
  | nil => cases t <;> simpa [subtreeAt] using ht
  | cons i p ih =>
    cases t with
    | null => trivial
    | node d cr ch its =>
      simp only [Contained] at ht
      simpa only [subtreeAt] using ih (ch i) (ht i).2

end QuadTree

namespace QuadTreeContainer
variable {T : Type}

theorem PushedDown_QuadrantsOK_Step {c c' : QuadTreeContainer T} (hs : Step c c')
    (hc : QuadTree.PushedDown c.rootQuadTree ∧ QuadTree.QuadrantsOK c.rootQuadTree) :
    QuadTree.PushedDown c'.rootQuadTree ∧ QuadTree.QuadrantsOK c'.rootQuadTree := by
  cases hs with
  | insert item r =>
    exact ⟨QuadTree.PushedDown_Insert _ _ _ _ hc.1, QuadTree.QuadrantsOK_Insert _ _ _ _ hc.2⟩
  | remove _ h hr =>
    simp only [Remove] at hr
    split at hr
    · cases hr
    · split at hr
      · cases hr
      · rename_i t ht
        cases hr
        exact ⟨QuadTree.PushedDown_eraseAt _ _ _ _ ht hc.1,
          QuadTree.QuadrantsOK_eraseAt _ _ _ _ ht hc.2⟩
  | relocate _ h r hr =>
    simp only [Relocate] at hr
    split at hr
    · cases hr
    · split at hr
      · cases hr
      · rename_i t ht
        cases hr
        exact ⟨QuadTree.PushedDown_Insert _ _ _ _ (QuadTree.PushedDown_eraseAt _ _ _ _ ht hc.1),
          QuadTree.QuadrantsOK_Insert _ _ _ _ (QuadTree.QuadrantsOK_eraseAt _ _ _ _ ht hc.2)⟩

theorem PushedDown_QuadrantsOK_of_ReachableAll {c : QuadTreeContainer T}
    (hc : ReachableAll c) :
    QuadTree.PushedDown c.rootQuadTree ∧ QuadTree.QuadrantsOK c.rootQuadTree := by
  obtain ⟨r, n, hs⟩ := hc
  induction hs with
  | refl => exact ⟨QuadTree.PushedDown_create r n, QuadTree.QuadrantsOK_create r n⟩
  | tail _ hstep ih =>
    cases hstep with
    | step _ hs' => exact PushedDown_QuadrantsOK_Step hs' ih
    | resize b => exact ⟨QuadTree.PushedDown_Resize _ _, QuadTree.QuadrantsOK_Resize _ _⟩
    | clear => exact ⟨QuadTree.PushedDown_Clear _, QuadTree.QuadrantsOK_Clear _ ih.2⟩

theorem ReachableAll_of_Reachable {c : QuadTreeContainer T} (hc : Reachable c) :
    ReachableAll c := by
  obtain ⟨r, n, hs⟩ := hc
  refine ⟨r, n, ?_⟩
  exact Relation.ReflTransGen.mono (fun a b h => StepAll.step a b h) hs

end QuadTreeContainer

/-! ## Invariants of reachable states -/

/-- C14: in every state reachable from a freshly constructed container by `Insert`, `Remove`,
`Relocate`, `Resize` and `clear`, no node of depth `d` with `d + 1 < MAX_DEPTH` holds in its
local list an entry whose rect is contained by one of that node's own four quadrants. -/
theorem C14_push_down_invariant (T : Type) (c : QuadTreeContainer T)
    (hc : QuadTreeContainer.ReachableAll c) :
    QuadTree.PushedDown c.rootQuadTree ∧
    ∀ (p : List (Fin 4)) (d : Nat) (cr : Fin 4 → olc.rect) (ch : Fin 4 → QuadTree Nat)
      (its : List (ListCell Nat)),
      QuadTree.subtreeAt c.rootQuadTree p = QuadTree.node d cr ch its → d + 1 < MAX_DEPTH →
        ∀ cell ∈ its, ∀ i, (cr i).Contains cell.first = false := by
  have h := (QuadTreeContainer.PushedDown_QuadrantsOK_of_ReachableAll hc).1
  refine ⟨h, ?_⟩
  intro p d cr ch its hp hd cell hcell i
  have := QuadTree.PushedDown_subtreeAt _ p h
  rw [hp] at this
  simp only [QuadTree.PushedDown] at this
  exact this.1 hd cell hcell i

/-- C17: in every state reached by `Insert`, `Remove` and `Relocate` calls, canonical entries
and tree entries correspond one to one (the lists of their triples handle, node, cell address
are permutations of each other): the recorded location of each canonical entry designates a
cell of the named node's local list that holds the entry's own handle, and every local-list
entry of the tree is the recorded location of exactly one canonical entry, whose handle it
holds. -/
theorem C17_location_consistency (T : Type) (c : QuadTreeContainer T)
    (hc : QuadTreeContainer.Reachable c) :
    (QuadTreeContainer.treeTriples c.rootQuadTree).Perm c.itemTriples ∧
    (∀ e ∈ c.items, ∃ cell,
      c.rootQuadTree.cellAt e.location.container e.location.iterator = some cell ∧
      (e.location.container, cell) ∈ QuadTree.entries c.rootQuadTree ∧
      cell.second = e.self) ∧
    (∀ pc ∈ QuadTree.entries c.rootQuadTree,
      ∃! e, e ∈ c.items ∧ e.location = ⟨pc.1, pc.2.addr⟩ ∧ e.self = pc.2.second) := by
  have hinv := QuadTreeContainer.Inv_of_Reachable hc
  refine ⟨hinv.loc, ?_, ?_⟩
  · intro e he
    have h1 : (e.self, e.location.container, e.location.iterator) ∈ c.itemTriples :=
      List.mem_map.2 ⟨e, he, rfl⟩
    obtain ⟨pc, hpc, heq⟩ := List.mem_map.1 (hinv.loc.mem_iff.2 h1)
    simp only [Prod.mk.injEq] at heq
    obtain ⟨c', hc'⟩ := QuadTree.cellAt_isSome_of_mem _ _ _ hpc
    obtain ⟨hm, ha⟩ := QuadTree.cellAt_mem _ _ _ _ hc'
    have h2 : ((pc.1, c') : List (Fin 4) × ListCell Nat) = pc :=
      List.inj_on_of_nodup_map hinv.addr_nodup hm hpc ha
    refine ⟨c', ?_, ?_, ?_⟩
    · rw [← heq.2.1, ← heq.2.2]; exact hc'
    · rw [← heq.2.1]; exact hm
    · rw [← heq.1, ← h2]
  · intro pc hpc
    have h1 : (pc.2.second, pc.1, pc.2.addr) ∈ c.itemTriples :=
      hinv.loc.mem_iff.1 (List.mem_map.2 ⟨pc, hpc, rfl⟩)
    obtain ⟨e, he, heq⟩ := List.mem_map.1 h1
    simp only [Prod.mk.injEq] at heq
    refine ⟨e, ⟨he, ?_, heq.1⟩, ?_⟩
    · cases hl : e.location with
      | mk p a =>
        rw [hl] at heq
        simp only at heq
        rw [heq.2.1, heq.2.2]
    · rintro e' ⟨he', hl', hs'⟩
      have : (fun x : QuadTreeItem T => x.self) e' = (fun x : QuadTreeItem T => x.self) e := by
        simp only [hs', heq.1]
      exact List.inj_on_of_nodup_map hinv.handles_nodup he' he this

/-- C17 at a concrete input: the state after one `Insert`. -/
theorem C17_location_consistency_witness :
    (QuadTreeContainer.treeTriples
      ((QuadTreeContainer.create : QuadTreeContainer Unit).Insert ()
        ⟨⟨40, 40⟩, ⟨20, 5⟩⟩).rootQuadTree).Perm
      ((QuadTreeContainer.create : QuadTreeContainer Unit).Insert ()
        ⟨⟨40, 40⟩, ⟨20, 5⟩⟩).itemTriples :=
  (C17_location_consistency Unit _ (rootState_Reachable Unit () _)).1

/-- C19: in every state reached by `Insert`, `Remove` and `Relocate` calls, for every node `N`
of the tree and every child slot `i` of `N`, each entry stored anywhere in the subtree of
child `i` has a rect that quadrant rect `i` of `N` contains. -/
theorem C19_subtree_containment (T : Type) (c : QuadTreeContainer T)
    (hc : QuadTreeContainer.Reachable c) :
    ∀ (p : List (Fin 4)) (d : Nat) (cr : Fin 4 → olc.rect) (ch : Fin 4 → QuadTree Nat)
      (its : List (ListCell Nat)),
      QuadTree.subtreeAt c.rootQuadTree p = QuadTree.node d cr ch its →
        ∀ i, ∀ pc ∈ QuadTree.entries (ch i), (cr i).Contains pc.2.first = true := by
  intro p d cr ch its hp i pc hpc
  have := QuadTree.Contained_subtreeAt _ p (QuadTreeContainer.Inv_of_Reachable hc).contained
  rw [hp] at this
  simp only [QuadTree.Contained] at this
  exact (this i).1 pc hpc

/-- C20: for every bounds rect `b` and every rect `r` of non-negative size, at most one of the
four quadrant rects that `Resize(b)` produces contains `r`; hence on every tree whose quadrant
rects come from `Resize` (every tree the container can reach) `Insert` returns the same tree and
the same location whatever the order in which its loop tests the quadrants. -/
theorem C20_quadrant_unique (b r : olc.rect) (hx : 0 ≤ r.size.x) (hy : 0 ≤ r.size.y) :
    (∀ i j : Fin 4, (QuadTree.quadrants b i).Contains r = true →
      (QuadTree.quadrants b j).Contains r = true → i = j) ∧
    (∀ (α : Type) (ord : List (Fin 4)) (t : QuadTree α) (item : α) (a : Nat),
      ord.Perm QuadTree.quadrantOrder → QuadTree.QuadrantsOK t →
        QuadTree.InsertWith ord t item r a = QuadTree.Insert t item r a) ∧
    (∀ (T : Type) (c : QuadTreeContainer T), QuadTreeContainer.ReachableAll c →
      QuadTree.QuadrantsOK c.rootQuadTree) :=
  ⟨fun _ _ hi hj => QuadTree.quadrant_unique hx hy hi hj,
    fun _ _ t item a hord ht => QuadTree.InsertWith_eq_Insert hord t item r a hx hy ht,
    fun _ _ hc => (QuadTreeContainer.PushedDown_QuadrantsOK_of_ReachableAll hc).2⟩

/-- C20 at a concrete input: the rect `[10,10,5,5]` inserted in a fresh root over
`[0,0,100,100]` with the quadrants tested in the order 3, 2, 1, 0. -/
theorem C20_quadrant_unique_witness :
    QuadTree.InsertWith [3, 2, 1, 0] (QuadTree.create ⟨⟨0, 0⟩, ⟨100, 100⟩⟩ 0 : QuadTree Nat)
        0 ⟨⟨10, 10⟩, ⟨5, 5⟩⟩ 1 =
      QuadTree.Insert (QuadTree.create ⟨⟨0, 0⟩, ⟨100, 100⟩⟩ 0) 0 ⟨⟨10, 10⟩, ⟨5, 5⟩⟩ 1 :=
  (C20_quadrant_unique ⟨⟨0, 0⟩, ⟨100, 100⟩⟩ ⟨⟨10, 10⟩, ⟨5, 5⟩⟩ (by norm_num) (by norm_num)).2.1
    Nat [3, 2, 1, 0] _ 0 1 (by decide) (QuadTree.QuadrantsOK_create _ _)

/-! ## Search as a filter of the cells -/

namespace QuadTree
variable {α : Type}

/-- What `Search` pushes: the cells selected by `inSearch`, in the order of `GetItems`. -/
theorem Search_eq_filter_entries (t : QuadTree α) (q : olc.rect) :
    Search t q =
      ((entries t).filter (fun pc => inSearch t q pc.1 pc.2)).map (fun pc => pc.2.second) := by
  induction t with
  | null => rfl
  | node d cr ch its ih =>
    simp only [Search, entries, List.filter_append, List.map_append, List.filter_map,
      List.map_map, List.filter_flatMap, List.map_flatMap]
    congr 1
    congr 1
    funext i
    by_cases hn : (ch i).isNull = true
    · simp [hn, entries_of_isNull hn]
    · simp only [hn, Bool.false_eq_true, if_false]
      by_cases hq : q.Contains (cr i) = true
      · simp only [hq, if_true, GetItems_eq_entries]
        simp [Function.comp_def, inSearch, hq]
      · simp only [hq, Bool.false_eq_true, if_false]
        by_cases ho : (cr i).Overlaps q = true
        · simp only [ho, if_true]
          rw [ih i]
          simp [Function.comp_def, inSearch, hq, ho]
        · simp only [ho, Bool.false_eq_true, if_false]
          simp [Function.comp_def, inSearch, hq, ho]

/-- What the reference search pushes: the cells whose rect overlaps the query. -/
theorem SearchReference_eq_filter_entries (t : QuadTree α) (q : olc.rect) :
    SearchReference t q =
      ((entries t).filter (fun pc => q.Overlaps pc.2.first)).map (fun pc => pc.2.second) := by
  induction t with
  | null => rfl
  | node d cr ch its ih =>
    simp only [SearchReference, entries, List.filter_append, List.map_append, List.filter_map,
      List.map_map, List.filter_flatMap, List.map_flatMap]
    congr 1
    congr 1
    funext i
    rw [ih i]
    simp [Function.comp_def]

/-- On a tree that satisfies the containment invariant, a cell whose computed far edges lie
strictly beyond its near edges is pushed by `Search` exactly when its rect overlaps the
query. -/
theorem inSearch_eq_Overlaps (t : QuadTree α) (q : olc.rect) (ht : Contained t)
    (p : List (Fin 4)) (c : ListCell α) (hc : (p, c) ∈ entries t)
    (hx : c.first.pos.x < c.first.pos.x + c.first.size.x)
    (hy : c.first.pos.y < c.first.pos.y + c.first.size.y) :
    inSearch t q p c = q.Overlaps c.first := by
  induction t generalizing p with
  | null => simp [entries] at hc
  | node d cr ch its ih =>
    rcases mem_entries_node.1 hc with ⟨rfl, _⟩ | ⟨i, p', rfl, hq⟩
    · rfl
    · simp only [Contained] at ht
      have hcont := (ht i).1 (p', c) hq
      simp only [inSearch]
      by_cases hqc : q.Contains (cr i) = true
      · simp only [hqc, if_true]
        exact (olc.rect.overlaps_of_contains_of_contains hqc hcont hx hy).symm
      · simp only [hqc, Bool.false_eq_true, if_false]
        by_cases ho : (cr i).Overlaps q = true
        · simp only [ho, if_true]
          exact ih i (ht i).2 p' hq
        · simp only [ho, Bool.false_eq_true, if_false]
          cases hov : q.Overlaps c.first with
          | false => rfl
          | true => exact absurd (olc.rect.overlaps_of_contains_of_overlaps hcont hov) ho

/-- With the containment invariant and stored rects whose computed far edges lie strictly
beyond their near edges, `Search` returns the list of the reference search, in the same
order. -/
theorem Search_eq_SearchReference (t : QuadTree α) (q : olc.rect) (ht : Contained t)
    (hpos : ∀ pc ∈ entries t, pc.2.first.pos.x < pc.2.first.pos.x + pc.2.first.size.x ∧
      pc.2.first.pos.y < pc.2.first.pos.y + pc.2.first.size.y) :
    Search t q = SearchReference t q := by
  rw [Search_eq_filter_entries, SearchReference_eq_filter_entries]
  congr 1
  refine List.filter_congr ?_
  intro pc hpc
  exact inSearch_eq_Overlaps t q ht pc.1 pc.2 hpc (hpos pc hpc).1 (hpos pc hpc).2

theorem mem_entries_of_mem_subtreeAt (t : QuadTree α) (p : List (Fin 4))
    (pc : List (Fin 4) × ListCell α) (h : pc ∈ entries (subtreeAt t p)) :
    (p ++ pc.1, pc.2) ∈ entries t := by
  induction p generalizing t with
  | nil => cases t <;> simpa [subtreeAt] using h
  | cons i p ih =>
    cases t with
    | null => simp [subtreeAt, entries] at h
    | node d cr ch its =>
      simp only [subtreeAt] at h
      exact mem_entries_node.2 (Or.inr ⟨i, p ++ pc.1, rfl, ih (ch i) h⟩)

end QuadTree

/-! ## What an erase leaves unchanged -/

namespace QuadTree
variable {α : Type}

theorem sublist_flatMap_of_mem {ι β : Type} {l : List ι} {i : ι} (hi : i ∈ l)
    (f : ι → List β) : (f i).Sublist (l.flatMap f) := by
  rw [List.flatMap_def]
  exact List.sublist_flatten_of_mem (List.mem_map.2 ⟨i, hi, rfl⟩)

theorem addr_nodup_child {d : Nat} {cr : Fin 4 → olc.rect} {ch : Fin 4 → QuadTree α}
    {its : List (ListCell α)}
    (h : ((entries (node d cr ch its)).map (fun pc => pc.2.addr)).Nodup) (i : Fin 4) :
    ((entries (ch i)).map (fun pc => pc.2.addr)).Nodup := by
  have hs : ((entries (ch i)).map (fun pc => (i :: pc.1, pc.2))).Sublist
      (entries (node d cr ch its)) := by
    simp only [entries]
    exact (sublist_flatMap_of_mem (mem_quadrantOrder i)
      (fun i => (entries (ch i)).map (fun pc => (i :: pc.1, pc.2)))).trans
        (List.sublist_append_right _ _)
  have := h.sublist (hs.map (fun pc => pc.2.addr))
  simpa [Function.comp_def] using this

theorem addr_nodup_items {d : Nat} {cr : Fin 4 → olc.rect} {ch : Fin 4 → QuadTree α}
    {its : List (ListCell α)}
    (h : ((entries (node d cr ch its)).map (fun pc => pc.2.addr)).Nodup) :
    (its.map (fun c => c.addr)).Nodup := by
  have hs : (its.map (fun c => (([] : List (Fin 4)), c))).Sublist
      (entries (node d cr ch its)) := by
    simp only [entries]
    exact List.sublist_append_left _ _
  have := h.sublist (hs.map (fun pc => pc.2.addr))
  simpa [Function.comp_def] using this

theorem eraseP_eq_filter_of_nodup {β : Type} (f : β → Nat) (a : Nat) (l : List β)
    (h : (l.map f).Nodup) :
    l.eraseP (fun c => decide (f c = a)) = l.filter (fun c => !decide (f c = a)) := by
  induction l with
  | nil => rfl
  | cons x l ih =>
    rw [List.map_cons, List.nodup_cons] at h
    by_cases hx : f x = a
    · have hall : ∀ y ∈ l, (!decide (f y = a)) = true := by
        intro y hy
        have : f y ≠ a := fun e => h.1 (hx ▸ e ▸ List.mem_map.2 ⟨y, hy, rfl⟩)
        simp [this]
      simp [hx, List.filter_eq_self.2 hall]
    · simp [hx, ih h.2]

/-- A successful erase keeps every other cell, in its node and in the same order. -/
theorem entries_eraseAt_filter (t : QuadTree α) (p : List (Fin 4)) (a : Nat) (t' : QuadTree α)
    (h : eraseAt t p a = some t')
    (hn : ((entries t).map (fun pc => pc.2.addr)).Nodup) :
    entries t' =
      (entries t).filter (fun pc => !(decide (pc.1 = p) && decide (pc.2.addr = a))) := by
  induction t generalizing p t' with
  | null => simp [eraseAt] at h
  | node d cr ch its ih =>
    cases p with
    | nil =>
      simp only [eraseAt] at h
      split at h
      · cases h
        simp only [entries, List.filter_append, List.filter_map, List.filter_flatMap]
        congr 1
        · rw [eraseP_eq_filter_of_nodup _ _ _ (addr_nodup_items hn)]
          congr 1
        · congr 1
          funext i
          simp [Function.comp_def]
      · cases h
    | cons i p =>
      simp only [eraseAt, Option.map_eq_some'] at h
      obtain ⟨c', hc', rfl⟩ := h
      simp only [entries, List.filter_append, List.filter_map, List.filter_flatMap]
      congr 1
      · simp [Function.comp_def]
      · congr 1
        funext j
        by_cases hj : j = i
        · subst hj
          simp only [Function.update_same]
          rw [ih j p c' hc' (addr_nodup_child hn j)]
          congr 1
          refine List.filter_congr ?_
          intro pc _
          simp
        · simp only [Function.update_noteq hj]
          have : ∀ pc ∈ entries (ch j),
              ((fun pc : List (Fin 4) × ListCell α =>
                !(decide (pc.1 = i :: p) && decide (pc.2.addr = a))) ∘
                  fun pc => (j :: pc.1, pc.2)) pc = true := by
            intro pc _
            simp [hj]
          rw [List.filter_eq_self.2 this]

/-- An erase does not change which cells `Search` selects. -/
theorem inSearch_eraseAt (t : QuadTree α) (p : List (Fin 4)) (a : Nat) (t' : QuadTree α)
    (h : eraseAt t p a = some t') (q : olc.rect) (p₂ : List (Fin 4)) (c : ListCell α) :
    inSearch t' q p₂ c = inSearch t q p₂ c := by
  induction t generalizing p t' p₂ with
  | null => simp [eraseAt] at h
  | node d cr ch its ih =>
    cases p with
    | nil =>
      simp only [eraseAt] at h
      split at h
      · cases h
        cases p₂ <;> rfl
      · cases h
    | cons i p =>
      simp only [eraseAt, Option.map_eq_some'] at h
      obtain ⟨c', hc', rfl⟩ := h
      cases p₂ with
      | nil => rfl
      | cons j p₂ =>
        simp only [inSearch]
        by_cases hj : j = i
        · subst hj
          simp only [Function.update_same]
          rw [ih j p c' hc']
        · simp only [Function.update_noteq hj]

/-- An erase creates no node and destroys none. -/
theorem dropItems_eraseAt (t : QuadTree α) (p : List (Fin 4)) (a : Nat) (t' : QuadTree α)
    (h : eraseAt t p a = some t') : dropItems t' = dropItems t := by
  induction t generalizing p t' with
  | null => simp [eraseAt] at h
  | node d cr ch its ih =>
    cases p with
    | nil =>
      simp only [eraseAt] at h
      split at h
      · cases h; rfl
      · cases h
    | cons i p =>
      simp only [eraseAt, Option.map_eq_some'] at h
      obtain ⟨c', hc', rfl⟩ := h
      simp only [dropItems]
      congr 1
      funext j
      by_cases hj : j = i
      · subst hj
        simp only [Function.update_same]
        exact ih j p c' hc'
      · simp only [Function.update_noteq hj]

end QuadTree

/-! ## The frame of `Remove` and the exactness of the containment shortcut -/

namespace QuadTreeContainer
variable {T : Type}

/-- In a state that satisfies the invariant, the cell designated by the recorded location of a
handle is, among the cells of the tree, the one that holds the handle. -/
theorem at_location_iff_second {c : QuadTreeContainer T} (hc : Inv c) {h : Nat}
    {e : QuadTreeItem T} (he : c.items.find? (fun e => decide (e.self = h)) = some e)
    (pc : List (Fin 4) × ListCell Nat) (hpc : pc ∈ QuadTree.entries c.rootQuadTree) :
    (pc.1 = e.location.container ∧ pc.2.addr = e.location.iterator) ↔ pc.2.second = h := by
  obtain ⟨cell, hcell, hca, hcs⟩ := exists_entry_of_find hc he
  constructor
  · rintro ⟨_, h2⟩
    have : pc = (e.location.container, cell) :=
      List.inj_on_of_nodup_map hc.addr_nodup hpc hcell (h2.trans hca.symm)
    rw [this]
    exact hcs
  · intro h2
    have : pc = (e.location.container, cell) :=
      entry_eq_of_second hc hpc hcell (h2.trans hcs.symm)
    rw [this]
    exact ⟨rfl, hca⟩

/-- The frame of `Remove` in a state that satisfies the invariant. -/
theorem Remove_frame {c : QuadTreeContainer T} (hc : Inv c) {h : Nat} (hh : h ∈ c.handles) :
    ∃ c', c.Remove h = some c' ∧
      c'.items = c.items.filter (fun e => decide (e.self ≠ h)) ∧
      QuadTree.entries c'.rootQuadTree =
        (QuadTree.entries c.rootQuadTree).filter (fun pc => decide (pc.2.second ≠ h)) ∧
      QuadTree.dropItems c'.rootQuadTree = QuadTree.dropItems c.rootQuadTree ∧
      ∀ q, c'.Search q = (c.Search q).filter (fun x => decide (x ≠ h)) := by
  obtain ⟨e, he⟩ := exists_find_of_mem_handles hh
  obtain ⟨cell, hcell, hca, _⟩ := exists_entry_of_find hc he
  obtain ⟨t, ht⟩ := QuadTree.eraseAt_isSome_of_mem _ _ _ hcell
  rw [hca] at ht
  have hent : QuadTree.entries t =
      (QuadTree.entries c.rootQuadTree).filter (fun pc => decide (pc.2.second ≠ h)) := by
    rw [QuadTree.entries_eraseAt_filter _ _ _ _ ht hc.addr_nodup]
    refine List.filter_congr ?_
    intro pc hpc
    have := at_location_iff_second hc he pc hpc
    by_cases hs : pc.2.second = h
    · have h2 := this.2 hs
      simp [hs, h2.1, h2.2]
    · have h2 : ¬ (pc.1 = e.location.container ∧ pc.2.addr = e.location.iterator) :=
        fun h3 => hs (this.1 h3)
      have h3 : (decide (pc.1 = e.location.container) &&
          decide (pc.2.addr = e.location.iterator)) = false := by
        rw [Bool.and_eq_false_iff]
        by_cases h4 : pc.1 = e.location.container
        · exact Or.inr (by simpa using fun h5 => h2 ⟨h4, h5⟩)
        · exact Or.inl (by simpa using h4)
      simp [hs, h3]
  refine ⟨⟨c.items.eraseP (fun e => decide (e.self = h)), t, c.nextAddr⟩, ?_, ?_, hent,
    QuadTree.dropItems_eraseAt _ _ _ _ ht, ?_⟩
  · simp only [Remove, he, ht]
  · simp only
    rw [QuadTree.eraseP_eq_filter_of_nodup (fun e : QuadTreeItem T => e.self) h c.items
      hc.handles_nodup]
    refine List.filter_congr ?_
    intro e' _
    simp
  · intro q
    simp only [Search]
    rw [QuadTree.Search_eq_filter_entries t q, QuadTree.Search_eq_filter_entries c.rootQuadTree q,
      hent, List.filter_map, List.filter_filter, List.filter_filter]
    congr 1
    refine List.filter_congr ?_
    intro pc _
    rw [QuadTree.inSearch_eraseAt _ _ _ _ ht]
    simp only [Function.comp_def]
    exact Bool.and_comm _ _

end QuadTreeContainer

/-- C18: in every state reached by `Insert`, `Remove` and `Relocate` calls and for every valid
handle `h`, `Remove(h)` succeeds and erases exactly the canonical entry of `h` and the one tree
cell that holds `h`; the tree has the same nodes (with the same depths and quadrants) as
before, every other cell keeps its node, its rect and its relative order, and for every rect
`q`, `Search(q)` after the call is `Search(q)` before the call with `h` deleted. -/
theorem C18_Remove_frame (T : Type) (c : QuadTreeContainer T)
    (hc : QuadTreeContainer.Reachable c) (h : Nat) (hh : h ∈ c.handles) :
    ∃ c', c.Remove h = some c' ∧
      c'.items = c.items.filter (fun e => decide (e.self ≠ h)) ∧
      c'.items.length + 1 = c.items.length ∧
      QuadTree.entries c'.rootQuadTree =
        (QuadTree.entries c.rootQuadTree).filter (fun pc => decide (pc.2.second ≠ h)) ∧
      (QuadTree.entries c'.rootQuadTree).length + 1 =
        (QuadTree.entries c.rootQuadTree).length ∧
      QuadTree.dropItems c'.rootQuadTree = QuadTree.dropItems c.rootQuadTree ∧
      ∀ q, c'.Search q = (c.Search q).filter (fun x => decide (x ≠ h)) := by
  have hinv := QuadTreeContainer.Inv_of_Reachable hc
  obtain ⟨c', h1, h2, h3, h4, h5⟩ := QuadTreeContainer.Remove_frame hinv hh
  have hinv' := QuadTreeContainer.Inv_Remove hinv h1
  have hlen := (QuadTreeContainer.Remove_facts hinv h1).1
  refine ⟨c', h1, h2, hlen, h3, ?_, h4, h5⟩
  have e1 := hinv.loc.length_eq
  have e2 := hinv'.loc.length_eq
  simp only [QuadTreeContainer.treeTriples, QuadTreeContainer.itemTriples,
    List.length_map] at e1 e2
  omega

/-- C15, as stated, fails for a stored rect of height zero: after `Insert` of the rect
`[20,0,10,0]` on the default universe, the query `[0,0,100,100]` contains the quadrant
`[0,0,50,50]` of the north-west child, the stored rect does not overlap the query, `Search`
returns the handle and the reference search returns nothing. -/
theorem C15_counterexample :
    QuadTreeContainer.Reachable
      ((QuadTreeContainer.create : QuadTreeContainer Unit).Insert () ⟨⟨20, 0⟩, ⟨10, 0⟩⟩) ∧
    (∀ pc ∈ QuadTree.entries ((QuadTreeContainer.create : QuadTreeContainer Unit).Insert ()
        ⟨⟨20, 0⟩, ⟨10, 0⟩⟩).rootQuadTree,
      0 ≤ pc.2.first.size.x ∧ 0 ≤ pc.2.first.size.y) ∧
    ((QuadTreeContainer.create : QuadTreeContainer Unit).Insert ()
        ⟨⟨20, 0⟩, ⟨10, 0⟩⟩).Search ⟨⟨0, 0⟩, ⟨100, 100⟩⟩ = [0] ∧
    QuadTree.SearchReference ((QuadTreeContainer.create : QuadTreeContainer Unit).Insert ()
        ⟨⟨20, 0⟩, ⟨10, 0⟩⟩).rootQuadTree ⟨⟨0, 0⟩, ⟨100, 100⟩⟩ = [] := by
  have hins : QuadTree.Insert (QuadTree.create ⟨⟨0, 0⟩, ⟨100, 100⟩⟩ 0) 0 ⟨⟨20, 0⟩, ⟨10, 0⟩⟩ 1 =
      (QuadTree.node 0 (QuadTree.quadrants ⟨⟨0, 0⟩, ⟨100, 100⟩⟩)
        (Function.update (fun _ => QuadTree.null) 0
          (QuadTree.node 1 (QuadTree.quadrants ⟨⟨0, 0⟩, ⟨50, 50⟩⟩) (fun _ => QuadTree.null)
            [⟨1, ⟨⟨20, 0⟩, ⟨10, 0⟩⟩, 0⟩])) [], ⟨[0], 1⟩) := by
    simp only [QuadTree.create, QuadTree.Resize, QuadTree.Clear]
    rw [QuadTree.Insert_descend (i := 0) (by
      norm_num [QuadTree.quadrants, olc.rect.Contains, QuadTree.quadrantOrder, MAX_DEPTH])]
    simp only [QuadTree.orCreate, QuadTree.isNull, QuadTree.create, QuadTree.Resize,
      QuadTree.Clear, if_true]
    rw [QuadTree.Insert_here (by
      norm_num [QuadTree.quadrants, olc.rect.Contains, QuadTree.quadrantOrder, MAX_DEPTH])]
    norm_num [QuadTree.quadrants]
  refine ⟨rootState_Reachable Unit () _, ?_, ?_, ?_⟩
  · intro pc hpc
    have hp := (QuadTree.entries_Insert_perm (QuadTree.create ⟨⟨0, 0⟩, ⟨100, 100⟩⟩ 0) 0
      ⟨⟨20, 0⟩, ⟨10, 0⟩⟩ 1 (QuadTree.isNull_create _ _)).mem_iff.1 hpc
    rw [QuadTree.entries_create] at hp
    simp only [List.mem_singleton] at hp
    rw [hp]
    norm_num
  · simp only [QuadTreeContainer.create, QuadTreeContainer.Insert, QuadTreeContainer.Search, hins]
    norm_num [QuadTree.Search, QuadTree.GetItems, QuadTree.quadrantOrder, QuadTree.isNull,
      QuadTree.quadrants, olc.rect.Contains, olc.rect.Overlaps, Function.update]
  · simp only [QuadTreeContainer.create, QuadTreeContainer.Insert, hins]
    norm_num [QuadTree.SearchReference, QuadTree.quadrantOrder, olc.rect.Overlaps,
      Function.update]

/-- C15, amended: in every state reached by `Insert`, `Remove` and `Relocate` calls in which
every stored rect has its far edges, as the rect predicates compute them (`pos + size`),
strictly beyond its near edges on both axes, for every query rect `q`: whenever `q` contains a
quadrant rect of a node, every cell stored below the corresponding child has a rect that
overlaps `q`; and `Search(q)` returns the same list, in the same order, as the reference search
that tests every stored rect against `q` with `Overlaps`.  The hypothesis is on the computed
sums, and the proof uses them only through the order. -/
theorem C15_shortcut_exact_far_edge (T : Type) (c : QuadTreeContainer T)
    (hc : QuadTreeContainer.Reachable c)
    (hpos : ∀ pc ∈ QuadTree.entries c.rootQuadTree,
      pc.2.first.pos.x < pc.2.first.pos.x + pc.2.first.size.x ∧
        pc.2.first.pos.y < pc.2.first.pos.y + pc.2.first.size.y)
    (q : olc.rect) :
    (∀ (p : List (Fin 4)) (d : Nat) (cr : Fin 4 → olc.rect) (ch : Fin 4 → QuadTree Nat)
      (its : List (ListCell Nat)),
      QuadTree.subtreeAt c.rootQuadTree p = QuadTree.node d cr ch its →
        ∀ i, q.Contains (cr i) = true →
          ∀ pc ∈ QuadTree.entries (ch i), q.Overlaps pc.2.first = true) ∧
    c.Search q = QuadTree.SearchReference c.rootQuadTree q := by
  have hinv := QuadTreeContainer.Inv_of_Reachable hc
  refine ⟨?_, QuadTree.Search_eq_SearchReference _ q hinv.contained hpos⟩
  intro p d cr ch its hp i hq pc hpc
  have hcont := QuadTree.Contained_subtreeAt _ p hinv.contained
  rw [hp] at hcont
  simp only [QuadTree.Contained] at hcont
  have hmem : (i :: pc.1, pc.2) ∈ QuadTree.entries (QuadTree.subtreeAt c.rootQuadTree p) := by
    rw [hp]
    exact QuadTree.mem_entries_node.2 (Or.inr ⟨i, pc.1, rfl, hpc⟩)
  have hroot := QuadTree.mem_entries_of_mem_subtreeAt _ p _ hmem
  have hsz := hpos _ hroot
  exact olc.rect.overlaps_of_contains_of_contains hq ((hcont i).1 pc hpc) hsz.1 hsz.2

/-- A state used at concrete inputs: one item with rect `[20,10,10,5]` on the default universe,
stored in the north-west child of the root. -/
theorem childState_eval (T : Type) (a : T) :
    (QuadTreeContainer.create : QuadTreeContainer T).Insert a ⟨⟨20, 10⟩, ⟨10, 5⟩⟩ =
      ⟨[⟨0, a, ⟨[0], 1⟩⟩],
        QuadTree.node 0 (QuadTree.quadrants ⟨⟨0, 0⟩, ⟨100, 100⟩⟩)
          (Function.update (fun _ => QuadTree.null) 0
            (QuadTree.node 1 (QuadTree.quadrants ⟨⟨0, 0⟩, ⟨50, 50⟩⟩) (fun _ => QuadTree.null)
              [⟨1, ⟨⟨20, 10⟩, ⟨10, 5⟩⟩, 0⟩])) [], 2⟩ := by
  have hins : QuadTree.Insert (QuadTree.create ⟨⟨0, 0⟩, ⟨100, 100⟩⟩ 0) 0 ⟨⟨20, 10⟩, ⟨10, 5⟩⟩ 1 =
      (QuadTree.node 0 (QuadTree.quadrants ⟨⟨0, 0⟩, ⟨100, 100⟩⟩)
        (Function.update (fun _ => QuadTree.null) 0
          (QuadTree.node 1 (QuadTree.quadrants ⟨⟨0, 0⟩, ⟨50, 50⟩⟩) (fun _ => QuadTree.null)
            [⟨1, ⟨⟨20, 10⟩, ⟨10, 5⟩⟩, 0⟩])) [], ⟨[0], 1⟩) := by
    simp only [QuadTree.create, QuadTree.Resize, QuadTree.Clear]
    rw [QuadTree.Insert_descend (i := 0) (by
      norm_num [QuadTree.quadrants, olc.rect.Contains, QuadTree.quadrantOrder, MAX_DEPTH])]
    simp only [QuadTree.orCreate, QuadTree.isNull, QuadTree.create, QuadTree.Resize,
      QuadTree.Clear, if_true]
    rw [QuadTree.Insert_here (by
      norm_num [QuadTree.quadrants, olc.rect.Contains, QuadTree.quadrantOrder, MAX_DEPTH])]
    norm_num [QuadTree.quadrants]
  simp only [QuadTreeContainer.create, QuadTreeContainer.Insert, hins]
  simp

theorem childState_entries (T : Type) (a : T) :
    QuadTree.entries
      ((QuadTreeContainer.create : QuadTreeContainer T).Insert a
        ⟨⟨20, 10⟩, ⟨10, 5⟩⟩).rootQuadTree = [([0], ⟨1, ⟨⟨20, 10⟩, ⟨10, 5⟩⟩, 0⟩)] := by
  rw [childState_eval]
  simp [QuadTree.entries, QuadTree.quadrantOrder, Function.update]

/-- C15, amended, at a concrete input: the item with rect `[20,10,10,5]` and the query
`[0,0,100,100]`, which contains the quadrant of the child that holds the item. -/
theorem C15_shortcut_exact_far_edge_witness :
    ((QuadTreeContainer.create : QuadTreeContainer Unit).Insert ()
        ⟨⟨20, 10⟩, ⟨10, 5⟩⟩).Search ⟨⟨0, 0⟩, ⟨100, 100⟩⟩ =
      QuadTree.SearchReference ((QuadTreeContainer.create : QuadTreeContainer Unit).Insert ()
        ⟨⟨20, 10⟩, ⟨10, 5⟩⟩).rootQuadTree ⟨⟨0, 0⟩, ⟨100, 100⟩⟩ :=
  (C15_shortcut_exact_far_edge Unit _ (rootState_Reachable Unit () _)
    (by
      intro pc hpc
      rw [childState_entries, List.mem_singleton] at hpc
      rw [hpc]
      norm_num)
    ⟨⟨0, 0⟩, ⟨100, 100⟩⟩).2

/-- C18 at a concrete input: `Remove` of the only item of the state above. -/
theorem C18_Remove_frame_witness :
    ∃ c', ((QuadTreeContainer.create : QuadTreeContainer Unit).Insert ()
        ⟨⟨20, 10⟩, ⟨10, 5⟩⟩).Remove 0 = some c' ∧
      QuadTree.dropItems c'.rootQuadTree =
        QuadTree.dropItems ((QuadTreeContainer.create : QuadTreeContainer Unit).Insert ()
          ⟨⟨20, 10⟩, ⟨10, 5⟩⟩).rootQuadTree ∧
      c'.Search ⟨⟨0, 0⟩, ⟨100, 100⟩⟩ =
        (((QuadTreeContainer.create : QuadTreeContainer Unit).Insert ()
          ⟨⟨20, 10⟩, ⟨10, 5⟩⟩).Search ⟨⟨0, 0⟩, ⟨100, 100⟩⟩).filter
            (fun x => decide (x ≠ 0)) := by
  obtain ⟨c', h1, _, _, _, _, h6, h7⟩ := C18_Remove_frame Unit _
    (rootState_Reachable Unit () ⟨⟨20, 10⟩, ⟨10, 5⟩⟩) 0
    (by rw [childState_eval]; simp [QuadTreeContainer.handles])
  exact ⟨c', h1, h6, h7 _⟩

/-- C19 at a concrete input: in the state above the rect `[20,10,10,5]`, stored below child 0
of the root, is contained in quadrant 0 of the root. -/
theorem C19_subtree_containment_witness :
    (QuadTree.quadrants ⟨⟨0, 0⟩, ⟨100, 100⟩⟩ 0).Contains ⟨⟨20, 10⟩, ⟨10, 5⟩⟩ = true :=
  C19_subtree_containment Unit _ (rootState_Reachable Unit () ⟨⟨20, 10⟩, ⟨10, 5⟩⟩) [] 0
    (QuadTree.quadrants ⟨⟨0, 0⟩, ⟨100, 100⟩⟩)
    (Function.update (fun _ => QuadTree.null) 0
      (QuadTree.node 1 (QuadTree.quadrants ⟨⟨0, 0⟩, ⟨50, 50⟩⟩) (fun _ => QuadTree.null)
        [⟨1, ⟨⟨20, 10⟩, ⟨10, 5⟩⟩, 0⟩])) []
    (by rw [childState_eval]; rfl) 0 ([], ⟨1, ⟨⟨20, 10⟩, ⟨10, 5⟩⟩, 0⟩)
    (by simp [QuadTree.entries, QuadTree.quadrantOrder])

/-- A state used at a concrete input: `Insert` of `[40,40,20,5]`, then `Resize([0,0,100,100])`,
then `Insert` of `[20,10,10,5]`; its tree holds the second item in the north-west child of the
root. -/
theorem resizedState_root :
    ((((QuadTreeContainer.create : QuadTreeContainer Unit).Insert ()
        ⟨⟨40, 40⟩, ⟨20, 5⟩⟩).Resize ⟨⟨0, 0⟩, ⟨100, 100⟩⟩).Insert ()
          ⟨⟨20, 10⟩, ⟨10, 5⟩⟩).rootQuadTree =
      QuadTree.node 0 (QuadTree.quadrants ⟨⟨0, 0⟩, ⟨100, 100⟩⟩)
        (Function.update (fun _ => QuadTree.null) 0
          (QuadTree.node 1 (QuadTree.quadrants ⟨⟨0, 0⟩, ⟨50, 50⟩⟩) (fun _ => QuadTree.null)
            [⟨3, ⟨⟨20, 10⟩, ⟨10, 5⟩⟩, 2⟩])) [] := by
  have hins : QuadTree.Insert
      (QuadTree.node 0 (QuadTree.quadrants ⟨⟨0, 0⟩, ⟨100, 100⟩⟩)
        (fun _ => (QuadTree.null : QuadTree Nat)) []) 2 ⟨⟨20, 10⟩, ⟨10, 5⟩⟩ 3 =
      (QuadTree.node 0 (QuadTree.quadrants ⟨⟨0, 0⟩, ⟨100, 100⟩⟩)
        (Function.update (fun _ => QuadTree.null) 0
          (QuadTree.node 1 (QuadTree.quadrants ⟨⟨0, 0⟩, ⟨50, 50⟩⟩) (fun _ => QuadTree.null)
            [⟨3, ⟨⟨20, 10⟩, ⟨10, 5⟩⟩, 2⟩])) [], ⟨[0], 3⟩) := by
    rw [QuadTree.Insert_descend (i := 0) (by
      norm_num [QuadTree.quadrants, olc.rect.Contains, QuadTree.quadrantOrder, MAX_DEPTH])]
    simp only [QuadTree.orCreate, QuadTree.isNull, QuadTree.create, QuadTree.Resize,
      QuadTree.Clear, if_true]
    rw [QuadTree.Insert_here (by
      norm_num [QuadTree.quadrants, olc.rect.Contains, QuadTree.quadrantOrder, MAX_DEPTH])]
    norm_num [QuadTree.quadrants]
  rw [rootState_eval]
  simp only [QuadTreeContainer.Resize, QuadTreeContainer.Insert, QuadTree.Resize,
    QuadTree.Clear, hins]

/-- C14 at a concrete input: in the state reached by `Insert`, `Resize`, `Insert` above, the
node at path `[0]` has depth 1, holds the item with rect `[20,10,10,5]`, and none of its four
quadrants contains that rect. -/
theorem C14_push_down_invariant_witness :
    ∃ (d : Nat) (cr : Fin 4 → olc.rect) (ch : Fin 4 → QuadTree Nat) (its : List (ListCell Nat)),
      QuadTree.subtreeAt ((((QuadTreeContainer.create : QuadTreeContainer Unit).Insert ()
        ⟨⟨40, 40⟩, ⟨20, 5⟩⟩).Resize ⟨⟨0, 0⟩, ⟨100, 100⟩⟩).Insert ()
          ⟨⟨20, 10⟩, ⟨10, 5⟩⟩).rootQuadTree [0] = QuadTree.node d cr ch its ∧
      d + 1 < MAX_DEPTH ∧ its ≠ [] ∧
      ∀ cell ∈ its, ∀ i, (cr i).Contains cell.first = false := by
  have hsub : QuadTree.subtreeAt ((((QuadTreeContainer.create : QuadTreeContainer Unit).Insert ()
      ⟨⟨40, 40⟩, ⟨20, 5⟩⟩).Resize ⟨⟨0, 0⟩, ⟨100, 100⟩⟩).Insert ()
        ⟨⟨20, 10⟩, ⟨10, 5⟩⟩).rootQuadTree [0] =
      QuadTree.node 1 (QuadTree.quadrants ⟨⟨0, 0⟩, ⟨50, 50⟩⟩) (fun _ => QuadTree.null)
        [⟨3, ⟨⟨20, 10⟩, ⟨10, 5⟩⟩, 2⟩] := by
    rw [resizedState_root]
    simp [QuadTree.subtreeAt]
  exact ⟨1, _, _, _, hsub, by decide, by simp,
    (C14_push_down_invariant Unit _
      ⟨_, _, Relation.ReflTransGen.tail
        (Relation.ReflTransGen.tail
          (Relation.ReflTransGen.single
            (QuadTreeContainer.StepAll.step _ _ (QuadTreeContainer.Step.insert _ _ _)))
          (QuadTreeContainer.StepAll.resize _ _))
        (QuadTreeContainer.StepAll.step _ _ (QuadTreeContainer.Step.insert _ _ _))⟩).2
      [0] 1 _ _ _ hsub (by decide)⟩
